import Mathlib

/-!
Shallow embedding of the filesrv HTTP caching gateway (package filesrv):
the in-memory blob type with reader cloning, the MD5/ETag derivation of the
origin client, the origin fetch, the LRU cache with its invalidator, the
serve layer header logic, and the rate limiter's client identification.
Definitions are translated from the Go source; theorems settle the frozen
claims about them.
-/

set_option maxRecDepth 10000

namespace Filesrv

/-- Metadata of a cached file (Go struct fileInfo): basename is the fully
qualified origin URL; modtime is an abstract timestamp (the Go time.Time value
is only compared and formatted, never inspected, so a Nat stands for it). -/
structure fileInfo where
  basename : String
  modtime : Nat
  size : Nat
  contentType : String
  etag : String
deriving DecidableEq, Repr

/-- Go struct file: an io.ReadSeeker cursor (rdData, rdPos model the
bytes.Reader it wraps), the nil-able backing buffer buf, and metadata fi.
Bytes are modelled as Nat values (0..255). -/
structure file where
  rdData : List Nat
  rdPos : Nat
  buf : Option (List Nat)
  fi : fileInfo
deriving DecidableEq, Repr

/-- file.readClone: returns a fresh reader over f.buf with the same metadata.
The clone's own buf field is nil (Go leaves it unset). When f.buf is nil the
Go code panics; that is modelled as none. -/
def file.readClone (f : file) : Option file :=
  match f.buf with
  | none => none
  | some b => some { rdData := b, rdPos := 0, buf := none, fi := f.fi }

/-- Operations a caller can perform on a file's reader cursor
(bytes.Reader Read and Seek with the three whence modes). -/
inductive ROp where
  | read (n : Nat)
  | seekStart (off : Int)
  | seekCur (off : Int)
  | seekEnd (off : Int)
deriving DecidableEq, Repr

/-- Observable result of one reader operation: bytes delivered by Read, the
new absolute position reported by Seek, or a Seek error (negative position). -/
inductive ROut where
  | bytes (bs : List Nat)
  | seeked (pos : Nat)
  | seekErr
deriving DecidableEq, Repr

/-- Seek helper: Go bytes.Reader rejects a negative resulting offset and
otherwise stores it (seeking past the end is allowed; reads there hit EOF). -/
def seekTo (f : file) (abs : Int) : ROut × file :=
  if abs < 0 then (.seekErr, f)
  else (.seeked abs.toNat, { f with rdPos := abs.toNat })

/-- One step of a reader cursor: Read delivers min(n, remaining) bytes from
the current position and advances it; Seek computes the absolute target from
the whence mode. The underlying bytes are never written. -/
def rstep (f : file) : ROp → ROut × file
  | .read n =>
    let bs := (f.rdData.drop f.rdPos).take n
    (.bytes bs, { f with rdPos := f.rdPos + bs.length })
  | .seekStart off => seekTo f off
  | .seekCur off => seekTo f ((f.rdPos : Int) + off)
  | .seekEnd off => seekTo f ((f.rdData.length : Int) + off)

/-- Run a sequence of reader operations on one cursor, collecting outputs. -/
def runOps : List ROp → file → List ROut × file
  | [], f => ([], f)
  | op :: ops, f =>
    let (o, f') := rstep f op
    let (os, f'') := runOps ops f'
    (o :: os, f'')

/-- Run an interleaved schedule over two cursors: each schedule item names a
side (true = first cursor) and an operation for it. Outputs are collected per
side. -/
def runInterleaved : List (Bool × ROp) → file × file →
    List ROut × List ROut × file × file
  | [], (a, b) => ([], [], a, b)
  | (side, op) :: rest, (a, b) =>
    if side then
      let (o, a') := rstep a op
      let (os1, os2, fa, fb) := runInterleaved rest (a', b)
      (o :: os1, os2, fa, fb)
    else
      let (o, b') := rstep b op
      let (os1, os2, fa, fb) := runInterleaved rest (a, b')
      (os1, o :: os2, fa, fb)

/-- The operations a schedule assigns to one side, in order. -/
def projSide (side : Bool) (sched : List (Bool × ROp)) : List ROp :=
  (sched.filter (fun p => p.1 == side)).map (fun p => p.2)

/-! ## MD5 (crypto/md5), needed for the ETag fallback of the origin client -/

/-- 2^32, the modulus of all MD5 word arithmetic. -/
def M32 : Nat := 4294967296

/-- 32-bit left rotation for x < 2^32 and 0 < s < 32. -/
def rotl32 (x s : Nat) : Nat := ((x <<< s) + (x >>> (32 - s))) % M32

/-- 32-bit bitwise complement. -/
def mnot (x : Nat) : Nat := 4294967295 ^^^ x

/-- The 64 MD5 sine-derived constants. -/
def md5K : List Nat :=
  [0xd76aa478, 0xe8c7b756, 0x242070db, 0xc1bdceee,
   0xf57c0faf, 0x4787c62a, 0xa8304613, 0xfd469501,
   0x698098d8, 0x8b44f7af, 0xffff5bb1, 0x895cd7be,
   0x6b901122, 0xfd987193, 0xa679438e, 0x49b40821,
   0xf61e2562, 0xc040b340, 0x265e5a51, 0xe9b6c7aa,
   0xd62f105d, 0x02441453, 0xd8a1e681, 0xe7d3fbc8,
   0x21e1cde6, 0xc33707d6, 0xf4d50d87, 0x455a14ed,
   0xa9e3e905, 0xfcefa3f8, 0x676f02d9, 0x8d2a4c8a,
   0xfffa3942, 0x8771f681, 0x6d9d6122, 0xfde5380c,
   0xa4beea44, 0x4bdecfa9, 0xf6bb4b60, 0xbebfbc70,
   0x289b7ec6, 0xeaa127fa, 0xd4ef3085, 0x04881d05,
   0xd9d4d039, 0xe6db99e5, 0x1fa27cf8, 0xc4ac5665,
   0xf4292244, 0x432aff97, 0xab9423a7, 0xfc93a039,
   0x655b59c3, 0x8f0ccc92, 0xffeff47d, 0x85845dd1,
   0x6fa87e4f, 0xfe2ce6e0, 0xa3014314, 0x4e0811a1,
   0xf7537e82, 0xbd3af235, 0x2ad7d2bb, 0xeb86d391]

/-- The 64 MD5 per-round shift amounts. -/
def md5S : List Nat :=
  [7, 12, 17, 22, 7, 12, 17, 22, 7, 12, 17, 22, 7, 12, 17, 22,
   5, 9, 14, 20, 5, 9, 14, 20, 5, 9, 14, 20, 5, 9, 14, 20,
   4, 11, 16, 23, 4, 11, 16, 23, 4, 11, 16, 23, 4, 11, 16, 23,
   6, 10, 15, 21, 6, 10, 15, 21, 6, 10, 15, 21, 6, 10, 15, 21]

/-- Serialize a Nat into n little-endian bytes. -/
def toBytesLE : Nat → Nat → List Nat
  | 0, _ => []
  | n + 1, x => (x % 256) :: toBytesLE n (x / 256)

/-- Group a byte list into little-endian 32-bit words (4 bytes each). -/
def toWords : List Nat → List Nat
  | a :: b :: c :: d :: rest =>
    (a + (b <<< 8) + (c <<< 16) + (d <<< 24)) :: toWords rest
  | _ => []

/-- MD5 padding: append 0x80, zero bytes up to 56 mod 64, then the message
bit length as 8 little-endian bytes. -/
def md5pad (msg : List Nat) : List Nat :=
  let z := (119 - msg.length % 64) % 64
  msg ++ [128] ++ List.replicate z 0 ++ toBytesLE 8 (msg.length * 8)

/-- Split a byte list into 64-byte chunks (fuel-driven; the fuel is the list
length, enough since each step consumes at least one byte). -/
def chunksAux : Nat → List Nat → List (List Nat)
  | 0, _ => []
  | _, [] => []
  | n + 1, l => l.take 64 :: chunksAux n (l.drop 64)

/-- All 64-byte blocks of a padded message. -/
def chunks64 (l : List Nat) : List (List Nat) := chunksAux l.length l

/-- One MD5 round: i is the round index (0..63), w the 16 message words. -/
def md5Round (w : List Nat) (st : Nat × Nat × Nat × Nat) (i : Nat) :
    Nat × Nat × Nat × Nat :=
  let a := st.1
  let b := st.2.1
  let c := st.2.2.1
  let d := st.2.2.2
  let fg : Nat × Nat :=
    if i < 16 then ((b &&& c) ||| (mnot b &&& d), i)
    else if i < 32 then ((d &&& b) ||| (mnot d &&& c), (5 * i + 1) % 16)
    else if i < 48 then (b ^^^ c ^^^ d, (3 * i + 5) % 16)
    else (c ^^^ (b ||| mnot d), (7 * i) % 16)
  let x := (a + fg.1 + md5K.getD i 0 + w.getD fg.2 0) % M32
  (d, (b + rotl32 x (md5S.getD i 0)) % M32, b, c)

/-- Compress one 64-byte block into the running MD5 state. -/
def md5Block (st : Nat × Nat × Nat × Nat) (block : List Nat) :
    Nat × Nat × Nat × Nat :=
  let w := toWords block
  let r := (List.range 64).foldl (md5Round w) st
  ((st.1 + r.1) % M32, (st.2.1 + r.2.1) % M32,
   (st.2.2.1 + r.2.2.1) % M32, (st.2.2.2 + r.2.2.2) % M32)

/-- MD5 digest of a byte list: 16 bytes. -/
def md5bytes (msg : List Nat) : List Nat :=
  let st := (chunks64 (md5pad msg)).foldl md5Block
    (0x67452301, 0xefcdab89, 0x98badcfe, 0x10325476)
  toBytesLE 4 st.1 ++ toBytesLE 4 st.2.1 ++ toBytesLE 4 st.2.2.1 ++
    toBytesLE 4 st.2.2.2

/-- Lower-case hex digit. -/
def hexDigit (n : Nat) : Char := Char.ofNat (if n < 10 then 48 + n else 87 + n)

/-- Two lower-case hex digits of one byte. -/
def byteHex (b : Nat) : List Char := [hexDigit (b / 16), hexDigit (b % 16)]

/-- Lower-case hex MD5 of a byte list (hex.EncodeToString of the digest). -/
def md5hex (msg : List Nat) : String :=
  String.mk ((md5bytes msg).map byteHex).flatten

/-! ## Origin client (remote.go) -/

/-- strings.Trim with cutset a double quote: drop all leading and trailing
double-quote characters. -/
def trimQuotes (s : String) : String :=
  String.mk (((s.toList.dropWhile (fun c => c == '"')).reverse.dropWhile
    (fun c => c == '"')).reverse)

/-- getETag: the response's ETag header value with surrounding quotes
stripped; if that leaves the empty string, the lower-case hex MD5 of the
body read from the (rewound) reader. -/
def getETag (etagHeader : String) (body : List Nat) : String :=
  if trimQuotes etagHeader = "" then md5hex body else trimQuotes etagHeader

/-- The fields of an origin HTTP response that remoteFileSystem.Open
inspects. contentLength is the declared Content-Length (int64; -1 when
unknown), body the bytes actually read, etagHeader the ETag header value
("" when absent). -/
structure httpResponse where
  status : Nat
  contentLength : Int
  body : List Nat
  etagHeader : String
deriving DecidableEq, Repr

/-- Failure modes of the origin fetch: a transport error from the HTTP
client, or http.ErrMissingFile. -/
inductive fetchErr where
  | transport
  | missing
deriving DecidableEq, Repr

/-- remoteFileSystem.Open. resp is the outcome of the GET against
origin ++ name (error = transport failure). ct and mt are the resolved
content type and modtime (their derivation reads MIME tables and the wall
clock, outside the claims; they enter as parameters). Fidelity notes: the
Go code builds one bytes.Reader rd over the body; getContentType leaves it
rewound at offset 0, but when the ETag falls back to MD5, io.Copy drains rd,
so the fileInfo literal's size field (rd.Len(), the UNREAD byte count) is 0
and the returned file's cursor sits at EOF. buf always holds the full body. -/
def remoteOpen (origin name : String) (resp : Except Unit httpResponse)
    (ct : String) (mt : Nat) : Except fetchErr file :=
  match resp with
  | .error _ => .error .transport
  | .ok r =>
    if r.status ≠ 200 ∨ r.contentLength ≤ 0 then .error .missing
    else
      let drained := trimQuotes r.etagHeader = ""
      .ok { rdData := r.body,
            rdPos := if drained then r.body.length else 0,
            buf := some r.body,
            fi := { basename := origin ++ name,
                    modtime := mt,
                    size := if drained then 0 else r.body.length,
                    contentType := ct,
                    etag := getETag r.etagHeader r.body } }

/-! ## Cache invalidator shared state (cacheInvalidator, part_000) -/

/-- The zero value of the Go fileInfo struct: what a map read of a missing
key yields. -/
def zeroFileInfo : fileInfo :=
  { basename := "", modtime := 0, size := 0, contentType := "", etag := "" }

/-- Association-list lookup modelling a Go map read (keys kept unique by
construction). -/
def lookupA (l : List (String × fileInfo)) (k : String) : Option fileInfo :=
  (l.find? (fun p => p.1 == k)).map (fun p => p.2)

/-- Map delete: remove every binding of the key. -/
def eraseA (l : List (String × fileInfo)) (k : String) :
    List (String × fileInfo) :=
  l.filter (fun p => p.1 != k)

/-- Map assignment: bind the key, replacing any existing binding. -/
def insertA (l : List (String × fileInfo)) (k : String) (v : fileInfo) :
    List (String × fileInfo) :=
  (k, v) :: eraseA l k

/-- Set insertion for the added/removed delta sets (Go map-to-bool). -/
def insertS (l : List String) (k : String) : List String :=
  if k ∈ l then l else k :: l

/-- Shared state of the cacheInvalidator: the tracked metadata map, the
added/removed delta sets, and the lastmod relative clock. -/
structure invState where
  items : List (String × fileInfo)
  added : List String
  removed : List String
  lastmod : Nat
deriving DecidableEq, Repr

/-- The invalidator state a fresh cache starts with. -/
def initInv : invState :=
  { items := [], added := [], removed := [], lastmod := 0 }

/-- cacheInvalidator.Add by key and metadata: record the entry's fileInfo,
mark the key added, bump lastmod. (Del does not unmark added.) -/
def invAddN (name : String) (fi : fileInfo) (s : invState) : invState :=
  { s with items := insertA s.items name fi,
           added := insertS s.added name,
           lastmod := s.lastmod + 1 }

/-- cacheInvalidator.Del by key: drop the record, mark the key removed,
bump lastmod. (It does not unmark added.) -/
def invDelN (name : String) (s : invState) : invState :=
  { s with items := eraseA s.items name,
           removed := insertS s.removed name,
           lastmod := s.lastmod + 1 }

/-- The fold-deltas critical section of cacheInvalidator.run: when lastmod
moved, delete every removed key from the local snapshot, then for every
added key copy ci.items[k] into the snapshot — a Go map read that yields the
zero fileInfo when the key is no longer present — and clear both delta sets.
Go map iteration order is arbitrary; the folds below fix one order, which is
immaterial since the per-key updates touch distinct keys. Returns the new
local snapshot, the new locally remembered lastmod, and the shared state. -/
def foldDeltas (sh : invState) (localItems : List (String × fileInfo))
    (localLastmod : Nat) :
    List (String × fileInfo) × Nat × invState :=
  if sh.lastmod = localLastmod then (localItems, localLastmod, sh)
  else
    let l1 := sh.removed.foldl eraseA localItems
    let l2 := sh.added.foldl
      (fun l k => insertA l k ((lookupA sh.items k).getD zeroFileInfo)) l1
    (l2, sh.lastmod, { sh with added := [], removed := [] })

/-! ## LRU cache (memoryCacheFilesystem, part_000) -/

/-- Go struct centry: the value stored in each evict-list node. -/
structure centry where
  file : file
  name : String
deriving DecidableEq, Repr

/-- memoryCacheFilesystem: the evict list (front = MRU, back = LRU), the
byte-size counter, the limits, and the invalidator's shared state. The Go
map fs.cache sends each name to the unique list node holding it (add removes
any existing node before pushing a new one), so lookups are modelled as a
search of the list by name. -/
structure memoryCacheFilesystem where
  evictList : List centry
  size : Int
  maxItems : Nat
  maxSize : Int
  inv : invState
deriving DecidableEq, Repr

namespace memoryCacheFilesystem

/-- A fresh cache from NewCache(fs, maxItems, maxSize). -/
def initCache (maxItems : Nat) (maxSize : Int) : memoryCacheFilesystem :=
  { evictList := [], size := 0, maxItems := maxItems, maxSize := maxSize,
    inv := initInv }

/-- The map lookup fs.cache[name]: the unique list node named name. -/
def cLookup (s : memoryCacheFilesystem) (name : String) : Option centry :=
  s.evictList.find? (fun e => e.name == name)

/-- Remove the first node with the given name (list.Remove on that node). -/
def eraseName : List centry → String → List centry
  | [], _ => []
  | e :: es, k => if e.name == k then es else e :: eraseName es k

/-- evictList.MoveToFront on the node named name. -/
def moveToFrontName (l : List centry) (name : String) : List centry :=
  match l.find? (fun e => e.name == name) with
  | none => l
  | some e => e :: eraseName l name

/-- removeElement on the node named name: detach it from the list, subtract
its file size, delete it from the map (implicit: the node is gone), and
delete its invalidator record. A missing name is a no-op (unreachable: the
Go callers always pass a live node). -/
def removeElement (s : memoryCacheFilesystem) (name : String) :
    memoryCacheFilesystem :=
  match s.evictList.find? (fun e => e.name == name) with
  | none => s
  | some e =>
    { s with evictList := eraseName s.evictList name,
             size := s.size - (e.file.fi.size : Int),
             inv := invDelN e.name s.inv }

/-- removeOldest: remove the back (LRU) node, if any. -/
def removeOldest (s : memoryCacheFilesystem) : memoryCacheFilesystem :=
  match s.evictList.getLast? with
  | none => s
  | some e => s.removeElement e.name

/-- memoryCacheFilesystem.get: on a miss return none; on a hit promote the
node to MRU and return a read clone of its file (inner none = the clone
panic on a nil buf, unreachable for cached files). -/
def get (s : memoryCacheFilesystem) (name : String) :
    Option (Option file × memoryCacheFilesystem) :=
  match s.evictList.find? (fun e => e.name == name) with
  | none => none
  | some e =>
    some (e.file.readClone,
      { s with evictList := moveToFrontName s.evictList name })

/-- memoryCacheFilesystem.add: delete any existing node for the name, push a
new centry at the front, add its size, evict the back node if the count now
exceeds maxItems, register the new entry with the invalidator, and return a
read clone of the file. -/
def add (s : memoryCacheFilesystem) (name : String) (f : file) :
    Option file × memoryCacheFilesystem :=
  let s1 := match s.cLookup name with
    | some _ => s.removeElement name
    | none => s
  let ent : centry := { file := f, name := name }
  let s2 := { s1 with evictList := ent :: s1.evictList,
                      size := s1.size + (f.fi.size : Int) }
  let s3 := if s2.evictList.length > s2.maxItems then s2.removeOldest else s2
  let s4 := { s3 with inv := invAddN ent.name ent.file.fi s3.inv }
  (f.readClone, s4)

/-- memoryCacheFilesystem.del: remove the node for the name if present. -/
def del (s : memoryCacheFilesystem) (name : String) : memoryCacheFilesystem :=
  match s.cLookup name with
  | some _ => s.removeElement name
  | none => s

/-- memoryCacheFilesystem.Open against an origin filesystem (none = the
origin's Open failed). Returns the file handed to the caller, the new cache
state, and how many times the origin was consulted (0 on a hit, 1 on a
miss, even a failed one). -/
def Open (s : memoryCacheFilesystem) (origin : String → Option file)
    (name : String) : Option file × memoryCacheFilesystem × Nat :=
  match s.get name with
  | some (fOpt, s') => (fOpt, s', 0)
  | none =>
    match origin name with
    | none => (none, s, 1)
    | some f => let (rv, s') := s.add name f; (rv, s', 1)

/-- A whole sequence of Open calls, threading the cache state. -/
def runOpens (origin : String → Option file) (ops : List String)
    (s : memoryCacheFilesystem) : memoryCacheFilesystem :=
  ops.foldl (fun acc n => (acc.Open origin n).2.1) s

end memoryCacheFilesystem

/-! ## Invalidator sweep (cacheInvalidator.run / check) -/

/-- The conditional HEAD request cacheInvalidator.check builds: url is the
snapshot's basename, If-Modified-Since carries its modtime (the HTTP date
formatting is injective on the timestamps we model, so the header holds the
timestamp itself), If-None-Match its etag. -/
structure headRequest where
  url : String
  ifModifiedSince : Nat
  ifNoneMatch : String
deriving DecidableEq, Repr

/-- Build the conditional HEAD request for one snapshot record. -/
def mkCheckRequest (fi : fileInfo) : headRequest :=
  { url := fi.basename, ifModifiedSince := fi.modtime,
    ifNoneMatch := fi.etag }

/-- What check's status switch decides: 304 = up to date (true, nil);
408/429 = the retry error; anything else = stale (false, nil). -/
inductive checkResult where
  | uptodate
  | retryErr
  | stale
deriving DecidableEq, Repr

/-- The status switch at the end of cacheInvalidator.check. -/
def classifyStatus (st : Nat) : checkResult :=
  if st = 304 then .uptodate
  else if st = 408 ∨ st = 429 then .retryErr
  else .stale

/-- cacheInvalidator.check: issue the conditional HEAD and classify the
response status. resp maps each issued request to the origin's status. -/
def check (resp : headRequest → Nat) (fi : fileInfo) : checkResult :=
  classifyStatus (resp (mkCheckRequest fi))

/-- The per-entry loop of one sweep pass of cacheInvalidator.run: an
up-to-date entry and a retry error both leave the cache untouched; a stale
entry triggers the eviction callback delfn, which is mc.del on the key. The
local snapshot itself is not modified by the pass. -/
def sweepPass (resp : headRequest → Nat)
    (localItems : List (String × fileInfo)) (s : memoryCacheFilesystem) :
    memoryCacheFilesystem :=
  localItems.foldl (fun acc kv =>
    match check resp kv.2 with
    | .uptodate => acc
    | .retryErr => acc
    | .stale => acc.del kv.1) s

/-! ## Serve layer (serve.go) -/

/-- Whether a response header map already has the exact key (Go indexes
w.Header() with the canonical key directly). -/
def hasKey (h : List (String × String)) (k : String) : Bool :=
  h.any (fun p => p.1 == k)

/-- The header mutations of serveFile before delegating to ServeContent:
set Content-Type from the blob when absent and non-empty, then likewise
ETag. -/
def serveHeaders (h : List (String × String)) (f : file) :
    List (String × String) :=
  let h1 := if ¬hasKey h "Content-Type" ∧ f.fi.contentType ≠ "" then
    h ++ [("Content-Type", f.fi.contentType)] else h
  if ¬hasKey h1 "ETag" ∧ f.fi.etag ≠ "" then
    h1 ++ [("ETag", f.fi.etag)] else h1

/-- Outcome of serveFile for one request: response status, response headers,
the cache state afterwards, and how many origin fetches the call made. -/
structure serveResult where
  status : Nat
  headers : List (String × String)
  cache : memoryCacheFilesystem
  fetches : Nat
deriving DecidableEq, Repr

/-- serveFile: open the name through the cache; any error yields
http.NotFound (404). On success set the headers and delegate the body to
http.ServeContent (which may answer 200/304/206; modelled as 200, the
delegation itself being out of scope of the claims). -/
def serveFile (origin : String → Option file) (s : memoryCacheFilesystem)
    (name : String) (h : List (String × String)) : serveResult :=
  match s.Open origin name with
  | (none, s', cnt) => { status := 404, headers := h, cache := s', fetches := cnt }
  | (some f, s', cnt) =>
    { status := 200, headers := serveHeaders h f, cache := s', fetches := cnt }

/-! ## Admission rate limiter (server/acl.go) -/

/-- The request fields clientAddr reads: the values of the X-Forwarded-For
header (one element per header line; Header.Get returns the first) and
RemoteAddr. -/
structure httpRequest where
  xff : List String
  remoteAddr : String
deriving DecidableEq, Repr

/-- http.Header.Get: the first value of the header, "" when absent. -/
def headerGetFirst (vals : List String) : String := vals.headD ""

/-- Index of the last colon in a character list, if any. -/
def lastColonIdx (cs : List Char) : Option Nat :=
  (List.range cs.length).foldl
    (fun acc i => if cs.getD i ' ' == ':' then some i else acc) none

/-- net.SplitHostPort, host part only: split at the last colon; a bracketed
IPv6 host loses its brackets; a host with a stray colon or a missing port
separator is an error (none). -/
def splitHostPort (s : String) : Option String :=
  let cs := s.toList
  match lastColonIdx cs with
  | none => none
  | some i =>
    let host := cs.take i
    if host.head? = some '[' then
      if host.getLast? = some ']' then
        some (String.mk ((host.drop 1).dropLast))
      else none
    else
      if host.contains ':' then none else some (String.mk host)

/-- clientAddr: the X-Forwarded-For value from Header.Get when non-empty,
else the host part of RemoteAddr (none = the SplitHostPort error). -/
def clientAddr (r : httpRequest) : Option String :=
  let addr := headerGetFirst r.xff
  if addr ≠ "" then some addr else splitHostPort r.remoteAddr

/-- ratelimitHandler: resolve the client identifier (error → 500), take a
token from its bucket (declined → 429), else run the wrapped handler. The
Bool records whether the wrapped handler (the serve layer, hence the cache)
was invoked. take abstracts Ratelimiter.Take. -/
def ratelimitHandler (take : String → Bool) (h : httpRequest → Nat)
    (r : httpRequest) : Nat × Bool :=
  match clientAddr r with
  | none => (500, false)
  | some host => if ¬take host then (429, false) else (h r, true)

/-! ## Derived predicates and delta-op sequences used by the theorems -/

/-- The byte total of the files currently stored in the cache. -/
def sumSizes (l : List centry) : Int :=
  (l.map (fun e => (e.file.fi.size : Int))).sum

/-- The byte-size counter matches the stored files. -/
def sizeInvariant (s : memoryCacheFilesystem) : Prop :=
  s.size = sumSizes s.evictList

/-- Names in the evict list are pairwise distinct — the list counterpart of
fs.cache being a map. -/
def nodupNames (s : memoryCacheFilesystem) : Prop :=
  (s.evictList.map centry.name).Nodup

/-- One completed invalidator delta: an Add (with the metadata it records)
or a Del. -/
inductive invOp where
  | add (name : String) (fi : fileInfo)
  | del (name : String)
deriving DecidableEq, Repr

/-- Apply one delta to the invalidator's shared state. -/
def applyInvOp (s : invState) : invOp → invState
  | .add n fi => invAddN n fi s
  | .del n => invDelN n s

/-- Apply a sequence of deltas in order. -/
def applyInvOps (ops : List invOp) (s : invState) : invState :=
  ops.foldl applyInvOp s

/-- The key an op touches. -/
def opName : invOp → String
  | .add n _ => n
  | .del n => n

/-- The last op of the sequence touching the key, if any. -/
def lastOnKey : List invOp → String → Option invOp
  | [], _ => none
  | op :: ops, k =>
    match lastOnKey ops k with
    | some o => some o
    | none => if opName op == k then some op else none

/-- Whether the sequence contains an Add of the key. -/
def hasAddOn (ops : List invOp) (k : String) : Bool :=
  ops.any (fun op => match op with | .add n _ => n == k | .del _ => false)

/-- Whether the sequence contains a Del of the key. -/
def hasDelOn (ops : List invOp) (k : String) : Bool :=
  ops.any (fun op => match op with | .del n => n == k | .add _ _ => false)

/-- What the fold leaves in the local snapshot for one key, as a function of
the delta sequence since the previous fold: the latest Add's metadata when
the last op on the key is an Add; the zero metadata when the last op is a
Del but some Add of the key is still pending in the added set; absent when
the key was only deleted; the previous snapshot value when untouched. -/
def specFoldResult (ops : List invOp) (k : String) (base : Option fileInfo) :
    Option fileInfo :=
  match lastOnKey ops k with
  | none => base
  | some (.add _ fi) => some fi
  | some (.del _) => if hasAddOn ops k then some zeroFileInfo else none

/-- Witness fixture: metadata of a small concrete file. -/
def tFI : fileInfo :=
  { basename := "http://origin/a", modtime := 7, size := 3,
    contentType := "text/plain", etag := "e1" }

/-- Witness fixture: a small concrete cached file. -/
def tF : file :=
  { rdData := [1, 2, 3], rdPos := 0, buf := some [1, 2, 3], fi := tFI }

/-- Witness fixture: metadata of a second concrete file. -/
def tFI2 : fileInfo :=
  { basename := "http://origin/b", modtime := 8, size := 5,
    contentType := "text/plain", etag := "e2" }

/-- Witness fixture: a second concrete cached file. -/
def tF2 : file :=
  { rdData := [9, 9, 9, 9, 9], rdPos := 0, buf := some [9, 9, 9, 9, 9],
    fi := tFI2 }

/-- Witness fixture: an origin filesystem holding files a and b. -/
def wOrg : String → Option file :=
  fun n => if n = "a" then some tF else if n = "b" then some tF2 else none

/-- Witness fixture: a cache of capacity 2 holding file a (the state an
Open of a leaves behind). -/
def wS1 : memoryCacheFilesystem :=
  { evictList := [{ file := tF, name := "a" }], size := 3, maxItems := 2,
    maxSize := 64,
    inv := { items := [("a", tFI)], added := ["a"], removed := [],
             lastmod := 1 } }

/-- Witness fixture: a full cache of capacity 1 holding file a, with a
quiet invalidator. -/
def wS2 : memoryCacheFilesystem :=
  { evictList := [{ file := tF, name := "a" }], size := 3, maxItems := 1,
    maxSize := 0, inv := initInv }

/-- Witness fixture: the cache state a cold capacity-1 cache reaches after
one successful Open of a. -/
def wS3 : memoryCacheFilesystem :=
  { evictList := [{ file := tF, name := "a" }], size := 3, maxItems := 1,
    maxSize := 0,
    inv := { items := [("a", tFI)], added := ["a"], removed := [],
             lastmod := 1 } }

/-- Witness fixture: the reader clone of tF that Open hands out. -/
def wClone : file :=
  { rdData := [1, 2, 3], rdPos := 0, buf := none, fi := tFI }

/-- Witness fixture: the origin response of scenario S4 (body "abc", no
ETag header). -/
def wResp : httpResponse :=
  { status := 200, contentLength := 3, body := [97, 98, 99], etagHeader := "" }

/-- Witness fixture: the blob the origin client builds from wResp (the MD5
fallback drained the reader, so the recorded size is 0 and the cursor is at
EOF). -/
def wFile : file :=
  { rdData := [97, 98, 99], rdPos := 3, buf := some [97, 98, 99],
    fi := { basename := "o/a", modtime := 0, size := 0, contentType := "t",
            etag := "900150983cd24fb0d6963f7d28e17f72" } }

/-! ## Theorems -/

/-- A reader step never alters the bytes it reads from, the backing buffer
field, or the metadata; only the cursor position moves. -/
theorem rstep_preserves (g : file) (op : ROp) :
    (rstep g op).2.rdData = g.rdData ∧ (rstep g op).2.buf = g.buf ∧
      (rstep g op).2.fi = g.fi := by
  cases op <;> simp only [rstep, seekTo] <;> (try split) <;> simp

/-- Interleaved execution over two cursors is the product of the two solo
executions: each side's outputs and final cursor depend only on its own
projected operation sequence and starting cursor. -/
theorem runInterleaved_proj (sched : List (Bool × ROp)) : ∀ a b : file,
    runInterleaved sched (a, b) =
      ((runOps (projSide true sched) a).1, (runOps (projSide false sched) b).1,
       (runOps (projSide true sched) a).2, (runOps (projSide false sched) b).2) := by
  induction sched with
  | nil => intro a b; simp [runInterleaved, projSide, runOps]
  | cons p rest ih =>
    intro a b
    obtain ⟨side, op⟩ := p
    cases side <;>
      simp [runInterleaved, projSide, List.filter_cons, runOps, ih]

/-- C8: for every cached blob, any two reader handles obtained from it are
independent cursors over the same bytes, each starting at offset 0: the
interleaved execution of any schedule equals the two solo executions (so
reads and seeks on one cursor do not affect the other), no operation alters
the underlying bytes, and equal operation sequences read byte-identical
outputs regardless of interleaving. -/
theorem c8_reader_independence (f : file) (B : List Nat)
    (hb : f.buf = some B) :
    ∃ c, f.readClone = some c ∧ c.rdData = B ∧ c.rdPos = 0 ∧
      (∀ g op, (rstep g op).2.rdData = g.rdData) ∧
      (∀ sched : List (Bool × ROp),
        runInterleaved sched (c, c) =
          ((runOps (projSide true sched) c).1,
           (runOps (projSide false sched) c).1,
           (runOps (projSide true sched) c).2,
           (runOps (projSide false sched) c).2)) ∧
      (∀ sched : List (Bool × ROp),
        projSide true sched = projSide false sched →
          (runInterleaved sched (c, c)).1 = (runInterleaved sched (c, c)).2.1) := by
  refine ⟨{ rdData := B, rdPos := 0, buf := none, fi := f.fi }, ?_, rfl, rfl,
    fun g op => (rstep_preserves g op).1, fun sched => runInterleaved_proj sched _ _,
    fun sched hproj => ?_⟩
  · simp [file.readClone, hb]
  · rw [runInterleaved_proj sched, hproj]

/-- Witness for C8 at a concrete blob and schedule. -/
theorem c8_reader_independence_witness :
    tF.buf = some [1, 2, 3] ∧
    ∃ c, tF.readClone = some c ∧ c.rdData = [1, 2, 3] ∧ c.rdPos = 0 ∧
      (∀ g op, (rstep g op).2.rdData = g.rdData) ∧
      (∀ sched : List (Bool × ROp),
        runInterleaved sched (c, c) =
          ((runOps (projSide true sched) c).1,
           (runOps (projSide false sched) c).1,
           (runOps (projSide true sched) c).2,
           (runOps (projSide false sched) c).2)) ∧
      (∀ sched : List (Bool × ROp),
        projSide true sched = projSide false sched →
          (runInterleaved sched (c, c)).1 = (runInterleaved sched (c, c)).2.1) :=
  ⟨rfl, c8_reader_independence tF [1, 2, 3] rfl⟩

/-- toBytesLE always yields exactly n bytes. -/
theorem toBytesLE_length : ∀ n x, (toBytesLE n x).length = n := by
  intro n
  induction n with
  | zero => intro x; rfl
  | succ k ih => intro x; simp [toBytesLE, ih]

/-- An MD5 digest is 16 bytes. -/
theorem md5bytes_length (msg : List Nat) : (md5bytes msg).length = 16 := by
  unfold md5bytes
  simp [toBytesLE_length]

/-- Hex encoding doubles the length. -/
theorem flatten_byteHex_length (bs : List Nat) :
    ((bs.map byteHex).flatten).length = 2 * bs.length := by
  induction bs with
  | nil => simp
  | cons b t ih => simp [byteHex, ih]; ring

/-- A hex MD5 string is never empty (it has 32 characters). -/
theorem md5hex_ne_empty (msg : List Nat) : md5hex msg ≠ "" := by
  unfold md5hex
  intro h
  have hL : ((md5bytes msg).map byteHex).flatten = [] := congrArg String.data h
  have hlen := congrArg List.length hL
  rw [flatten_byteHex_length, md5bytes_length] at hlen
  simp at hlen

/-- The resolved etag is never the empty string: either the trimmed header
value is non-empty, or the MD5 fallback yields 32 hex characters. -/
theorem getETag_ne_empty (h : String) (body : List Nat) :
    getETag h body ≠ "" := by
  unfold getETag
  split
  · exact md5hex_ne_empty body
  · next hne => exact hne

/-- serveFile adds the blob's etag to the response headers whenever no ETag
header is present and the etag is non-empty. -/
theorem serveHeaders_etag_mem (h : List (String × String)) (f : file)
    (hk : hasKey h "ETag" = false) (he : f.fi.etag ≠ "") :
    ("ETag", f.fi.etag) ∈ serveHeaders h f := by
  unfold serveHeaders
  have hk1 : ∀ l : List (String × String), hasKey l "ETag" = false →
      hasKey (l ++ [("Content-Type", f.fi.contentType)]) "ETag" = false := by
    intro l hl
    simp [hasKey] at hl ⊢
    exact hl
  split
  · next hct =>
    rw [if_pos]
    · exact List.mem_append_right _ (by simp)
    · exact ⟨by simp [hk1 h hk], he⟩
  · rw [if_pos ⟨by simp [hk], he⟩]
    exact List.mem_append_right _ (by simp)

/-- C5: for every successful origin response, the blob's etag is the ETag
header value with surrounding quotes stripped, falling back to the
lower-case hex MD5 of the body when that leaves nothing; the MD5 of body
"abc" is 900150983cd24fb0d6963f7d28e17f72; and serveFile copies the etag
into the ETag response header when none is set. -/
theorem c5_etag (origin name ct : String) (mt : Nat) (r : httpResponse)
    (f : file) (h0 : List (String × String))
    (hopen : remoteOpen origin name (.ok r) ct mt = .ok f)
    (hno : hasKey h0 "ETag" = false) :
    f.fi.etag =
      (if trimQuotes r.etagHeader = "" then md5hex r.body
       else trimQuotes r.etagHeader) ∧
    md5hex [97, 98, 99] = "900150983cd24fb0d6963f7d28e17f72" ∧
    ("ETag", f.fi.etag) ∈ serveHeaders h0 f := by
  simp only [remoteOpen] at hopen
  split at hopen
  · exact absurd hopen (by simp)
  · injection hopen with hf
    subst hf
    exact ⟨rfl, by decide, serveHeaders_etag_mem h0 _ hno (getETag_ne_empty _ _)⟩

/-- Witness for C5 at the concrete S4 response. -/
theorem c5_etag_witness :
    remoteOpen "o" "/a" (.ok wResp) "t" 0 = .ok wFile ∧
    hasKey [] "ETag" = false ∧
    (wFile.fi.etag =
      (if trimQuotes wResp.etagHeader = "" then md5hex wResp.body
       else trimQuotes wResp.etagHeader) ∧
     md5hex [97, 98, 99] = "900150983cd24fb0d6963f7d28e17f72" ∧
     ("ETag", wFile.fi.etag) ∈ serveHeaders [] wFile) :=
  ⟨by rfl, rfl, c5_etag "o" "/a" "t" 0 wResp wFile [] (by rfl) rfl⟩

/-- C6 counterpart of the fetch error classification together with the
absence of negative caching: the origin fetch reports NotFound exactly for
a completed GET with status other than 200 or declared length at most 0,
and a missing path is answered 404 by the serve layer with a fresh origin
fetch on every request, the cache state unchanged. -/
theorem c6_notfound :
    (∀ (origin name : String) (resp : Except Unit httpResponse)
        (ct : String) (mt : Nat),
      remoteOpen origin name resp ct mt = .error .missing ↔
        ∃ r, resp = .ok r ∧ (r.status ≠ 200 ∨ r.contentLength ≤ 0)) ∧
    (∀ (origin : String → Option file) (s : memoryCacheFilesystem)
        (p : String) (h : List (String × String)),
      origin p = none → s.cLookup p = none →
      serveFile origin s p h =
          { status := 404, headers := h, cache := s, fetches := 1 } ∧
        serveFile origin (serveFile origin s p h).cache p h =
          { status := 404, headers := h, cache := s, fetches := 1 }) := by
  constructor
  · intro origin name resp ct mt
    cases resp with
    | error e => simp [remoteOpen]
    | ok r =>
      simp only [remoteOpen]
      split
      · next hcond => exact ⟨fun _ => ⟨r, rfl, hcond⟩, fun _ => rfl⟩
      · next hcond =>
        constructor
        · intro hcontra; exact absurd hcontra (by simp)
        · rintro ⟨r', hr', hc⟩
          injection hr' with hr2
          subst hr2
          exact absurd hc hcond
  · intro origin s p h horig hlk
    unfold memoryCacheFilesystem.cLookup at hlk
    have hopen : s.Open origin p = (none, s, 1) := by
      unfold memoryCacheFilesystem.Open memoryCacheFilesystem.get
      rw [hlk, horig]
    have h1 : serveFile origin s p h =
        { status := 404, headers := h, cache := s, fetches := 1 } := by
      unfold serveFile
      rw [hopen]
    exact ⟨h1, by rw [h1]; exact h1⟩

/-- Witness for C6: a concrete 404 origin response and a cold cache asked
twice for a missing path. -/
theorem c6_notfound_witness :
    (remoteOpen "o" "/missing"
        (.ok { status := 404, contentLength := 3, body := [1],
               etagHeader := "" }) "t" 0 = .error .missing ↔
      ∃ r, (.ok { status := 404, contentLength := 3, body := [1],
                  etagHeader := "" } : Except Unit httpResponse) = .ok r ∧
        (r.status ≠ 200 ∨ r.contentLength ≤ 0)) ∧
    ((fun _ => none : String → Option file) "/missing" = none ∧
     (memoryCacheFilesystem.initCache 2 64).cLookup "/missing" = none ∧
     serveFile (fun _ => none) (memoryCacheFilesystem.initCache 2 64)
         "/missing" [] =
       { status := 404, headers := [],
         cache := memoryCacheFilesystem.initCache 2 64, fetches := 1 }) :=
  ⟨c6_notfound.1 "o" "/missing" _ "t" 0,
   rfl, rfl,
   (c6_notfound.2 (fun _ => none) (memoryCacheFilesystem.initCache 2 64)
     "/missing" [] rfl rfl).1⟩

/-- C9 counterexample: an X-Forwarded-For header present with an empty
first value is ignored; the client identifier falls back to the remote
host, so it is not the header's first value as the claim states. -/
theorem c9_counterexample :
    ({ xff := [""], remoteAddr := "10.0.0.9:80" } : httpRequest).xff ≠ [] ∧
    clientAddr { xff := [""], remoteAddr := "10.0.0.9:80" } = some "10.0.0.9" ∧
    clientAddr { xff := [""], remoteAddr := "10.0.0.9:80" } ≠
      some (headerGetFirst
        ({ xff := [""], remoteAddr := "10.0.0.9:80" } : httpRequest).xff) := by
  decide

/-- C9 amended: the client identifier is the first X-Forwarded-For value
when that value is non-empty, and otherwise the host part of the remote
address; a request whose bucket grants no token is answered 429 with the
wrapped handler (hence the cache) not invoked. -/
theorem c9_rate_limit (take : String → Bool) (h : httpRequest → Nat)
    (r : httpRequest) :
    (headerGetFirst r.xff ≠ "" →
      clientAddr r = some (headerGetFirst r.xff)) ∧
    (headerGetFirst r.xff = "" →
      clientAddr r = splitHostPort r.remoteAddr) ∧
    (∀ host, clientAddr r = some host → take host = false →
      ratelimitHandler take h r = (429, false)) := by
  refine ⟨fun hne => ?_, fun he => ?_, fun host hca ht => ?_⟩
  · simp [clientAddr, hne]
  · simp [clientAddr, he]
  · simp [ratelimitHandler, hca, ht]

/-- Witness for C9 at a concrete throttled request. -/
theorem c9_rate_limit_witness :
    headerGetFirst (["1.2.3.4", "5.6.7.8"] : List String) ≠ "" ∧
    clientAddr { xff := ["1.2.3.4", "5.6.7.8"], remoteAddr := "10.0.0.9:80" } =
      some "1.2.3.4" ∧
    ratelimitHandler (fun _ => false) (fun _ => 200)
      { xff := ["1.2.3.4", "5.6.7.8"], remoteAddr := "10.0.0.9:80" } =
      (429, false) :=
  ⟨by decide,
   (c9_rate_limit (fun _ => false) (fun _ => 200)
     { xff := ["1.2.3.4", "5.6.7.8"], remoteAddr := "10.0.0.9:80" }).1
     (by decide),
   (c9_rate_limit (fun _ => false) (fun _ => 200)
     { xff := ["1.2.3.4", "5.6.7.8"], remoteAddr := "10.0.0.9:80" }).2.2
     "1.2.3.4"
     ((c9_rate_limit (fun _ => false) (fun _ => 200)
       { xff := ["1.2.3.4", "5.6.7.8"], remoteAddr := "10.0.0.9:80" }).1
       (by decide))
     rfl⟩

/-- An entry found by name carries that name. -/
theorem find?_name_eq {l : List centry} {k : String} {e : centry}
    (h : l.find? (fun x => x.name == k) = some e) : e.name = k := by
  have := List.find?_some h
  simpa using this

/-- find? on a cons, as an if on the head's name. -/
theorem find?_cons_name (a : centry) (as : List centry) (k : String) :
    (a :: as).find? (fun x => x.name == k) =
      if (a.name == k) = true then some a
      else as.find? (fun x => x.name == k) := by
  cases hk : (a.name == k) <;> simp [List.find?_cons, hk]

/-- Erasing an absent name is the identity. -/
theorem eraseName_of_find?_none {l : List centry} {k : String}
    (h : l.find? (fun x => x.name == k) = none) :
    memoryCacheFilesystem.eraseName l k = l := by
  induction l with
  | nil => rfl
  | cons a as ih =>
    rw [find?_cons_name] at h
    by_cases hk : (a.name == k) = true
    · rw [if_pos hk] at h; cases h
    · rw [if_neg hk] at h
      simp [memoryCacheFilesystem.eraseName, hk, ih h]

/-- Erasing a present name shortens the list by one. -/
theorem length_eraseName {l : List centry} {k : String} {e : centry}
    (h : l.find? (fun x => x.name == k) = some e) :
    (memoryCacheFilesystem.eraseName l k).length + 1 = l.length := by
  induction l with
  | nil => cases h
  | cons a as ih =>
    rw [find?_cons_name] at h
    by_cases hk : (a.name == k) = true
    · simp [memoryCacheFilesystem.eraseName, hk]
    · rw [if_neg hk] at h
      have := ih h
      simp only [memoryCacheFilesystem.eraseName, hk, if_false,
        Bool.false_eq_true, ite_false, List.length_cons]
      omega

/-- Erasing a present name removes exactly its size from the byte total. -/
theorem sumSizes_eraseName {l : List centry} {k : String} {e : centry}
    (h : l.find? (fun x => x.name == k) = some e) :
    sumSizes (memoryCacheFilesystem.eraseName l k) =
      sumSizes l - (e.file.fi.size : Int) := by
  induction l with
  | nil => cases h
  | cons a as ih =>
    rw [find?_cons_name] at h
    by_cases hk : (a.name == k) = true
    · rw [if_pos hk] at h
      injection h with he
      subst he
      simp [memoryCacheFilesystem.eraseName, hk, sumSizes]
    · rw [if_neg hk] at h
      simp only [memoryCacheFilesystem.eraseName, hk, Bool.false_eq_true,
        ite_false]
      simp only [sumSizes, List.map_cons, List.sum_cons] at ih ⊢
      rw [ih h]
      ring

/-- Promotion to MRU permutes the list, so the byte total is unchanged. -/
theorem sumSizes_moveToFrontName (l : List centry) (k : String) :
    sumSizes (memoryCacheFilesystem.moveToFrontName l k) = sumSizes l := by
  unfold memoryCacheFilesystem.moveToFrontName
  cases hf : l.find? (fun e => e.name == k) with
  | none => rfl
  | some e =>
    simp only [sumSizes, List.map_cons, List.sum_cons]
    have := sumSizes_eraseName hf
    simp only [sumSizes] at this
    rw [this]
    ring

/-- removeElement subtracts exactly the removed file's size. -/
theorem sizeInvariant_removeElement (s : memoryCacheFilesystem) (k : String)
    (h : sizeInvariant s) : sizeInvariant (s.removeElement k) := by
  unfold memoryCacheFilesystem.removeElement
  cases hf : s.evictList.find? (fun e => e.name == k) with
  | none => exact h
  | some e =>
    unfold sizeInvariant at h ⊢
    simp only
    rw [sumSizes_eraseName hf, h]

/-- removeOldest preserves the byte accounting. -/
theorem sizeInvariant_removeOldest (s : memoryCacheFilesystem)
    (h : sizeInvariant s) : sizeInvariant s.removeOldest := by
  unfold memoryCacheFilesystem.removeOldest
  cases hl : s.evictList.getLast? with
  | none => exact h
  | some e => exact sizeInvariant_removeElement s e.name h

/-- Pushing a new entry at the MRU end adds exactly its size. -/
theorem sizeInvariant_push (s : memoryCacheFilesystem) (ent : centry)
    (h : sizeInvariant s) :
    sizeInvariant { s with evictList := ent :: s.evictList,
                           size := s.size + (ent.file.fi.size : Int) } := by
  unfold sizeInvariant at h ⊢
  simp only [sumSizes, List.map_cons, List.sum_cons]
  unfold sumSizes at h
  rw [h]
  ring

/-- C10: the cache's byte-size counter always equals the sum of the sizes
of the files currently stored; every get (hit promotion), add (including
replacement and capacity eviction) and del preserves the equality. -/
theorem c10_size_accounting (s : memoryCacheFilesystem) (name : String)
    (f : file) (h : sizeInvariant s) :
    (∀ fOpt s', s.get name = some (fOpt, s') → sizeInvariant s') ∧
    sizeInvariant (s.add name f).2 ∧
    sizeInvariant (s.del name) := by
  refine ⟨?_, ?_, ?_⟩
  · intro fOpt s' hget
    unfold memoryCacheFilesystem.get at hget
    cases hf : s.evictList.find? (fun e => e.name == name) with
    | none => rw [hf] at hget; cases hget
    | some e =>
      rw [hf] at hget
      simp only [Option.some.injEq, Prod.mk.injEq] at hget
      obtain ⟨-, h2⟩ := hget
      subst h2
      unfold sizeInvariant
      simp only
      rw [sumSizes_moveToFrontName]
      exact h
  · cases hc : s.cLookup name with
    | none =>
      simp only [memoryCacheFilesystem.add, hc]
      have hp := sizeInvariant_push s { file := f, name := name } h
      split
      · have hx := sizeInvariant_removeOldest _ hp
        unfold sizeInvariant at hx ⊢
        exact hx
      · unfold sizeInvariant at hp ⊢
        exact hp
    | some old =>
      simp only [memoryCacheFilesystem.add, hc]
      have hp := sizeInvariant_push (s.removeElement name)
        { file := f, name := name } (sizeInvariant_removeElement s name h)
      split
      · have hx := sizeInvariant_removeOldest _ hp
        unfold sizeInvariant at hx ⊢
        exact hx
      · unfold sizeInvariant at hp ⊢
        exact hp
  · unfold memoryCacheFilesystem.del
    cases hc : s.cLookup name with
    | none => exact h
    | some old => exact sizeInvariant_removeElement s name h

/-- Witness for C10 at a concrete one-entry cache. -/
theorem c10_size_accounting_witness :
    sizeInvariant wS1 ∧ sizeInvariant (wS1.add "a" tF2).2 ∧
      sizeInvariant (wS1.del "a") := by
  refine ⟨?_, ?_, ?_⟩
  · unfold sizeInvariant; decide
  · exact (c10_size_accounting wS1 "a" tF2 (by unfold sizeInvariant; decide)).2.1
  · exact (c10_size_accounting wS1 "a" tF2 (by unfold sizeInvariant; decide)).2.2

/-- C7: inserting a key that is already cached first fully removes the
existing entry — detaching it from the ordering list, deleting it from the
map, and deleting its invalidator record via Del — then pushes the new
entry at the MRU end and registers it via Add: a fresh insert, not an
in-place update. -/
theorem c7_replacement (s : memoryCacheFilesystem) (name : String) (f : file)
    (old : centry) (hlk : s.cLookup name = some old)
    (hlen : s.evictList.length ≤ s.maxItems) :
    s.add name f =
      (f.readClone,
       { evictList := { file := f, name := name } ::
           memoryCacheFilesystem.eraseName s.evictList name,
         size := s.size - (old.file.fi.size : Int) + (f.fi.size : Int),
         maxItems := s.maxItems, maxSize := s.maxSize,
         inv := invAddN name f.fi (invDelN name s.inv) }) := by
  have hfind : s.evictList.find? (fun e => e.name == name) = some old := hlk
  have hname : old.name = name := find?_name_eq hfind
  have hlen2 := length_eraseName hfind
  simp only [memoryCacheFilesystem.add, hlk,
    memoryCacheFilesystem.removeElement, hfind]
  rw [if_neg (by simp only [List.length_cons]; omega)]
  rw [hname]

/-- Witness for C7: replacing the single entry of a concrete cache. -/
theorem c7_replacement_witness :
    wS1.cLookup "a" = some { file := tF, name := "a" } ∧
    wS1.evictList.length ≤ wS1.maxItems ∧
    wS1.add "a" tF2 =
      (tF2.readClone,
       { evictList := { file := tF2, name := "a" } ::
           memoryCacheFilesystem.eraseName wS1.evictList "a",
         size := wS1.size - (tF.fi.size : Int) + (tF2.fi.size : Int),
         maxItems := wS1.maxItems, maxSize := wS1.maxSize,
         inv := invAddN "a" tF2.fi (invDelN "a" wS1.inv) }) :=
  ⟨rfl, by decide,
   c7_replacement wS1 "a" tF2 { file := tF, name := "a" } rfl (by decide)⟩

/-- An element delivered by getLast? belongs to the list. -/
theorem mem_of_getLast?_eq {l : List centry} {b : centry}
    (h : l.getLast? = some b) : b ∈ l := by
  have hb : b ∈ l.getLast? := by rw [h]; rfl
  obtain ⟨hne, heq⟩ := List.mem_getLast?_eq_getLast hb
  rw [heq]
  exact List.getLast_mem hne

/-- Promotion preserves the entry count. -/
theorem length_moveToFrontName (l : List centry) (k : String) :
    (memoryCacheFilesystem.moveToFrontName l k).length = l.length := by
  unfold memoryCacheFilesystem.moveToFrontName
  cases hf : l.find? (fun e => e.name == k) with
  | none => rfl
  | some e =>
    have := length_eraseName hf
    simp only [List.length_cons]
    omega

/-- Removing the LRU tail of a non-empty list shortens it by exactly one. -/
theorem removeOldest_length (s : memoryCacheFilesystem)
    (hne : s.evictList ≠ []) :
    s.removeOldest.evictList.length + 1 = s.evictList.length := by
  unfold memoryCacheFilesystem.removeOldest
  rw [List.getLast?_eq_getLast_of_ne_nil hne]
  show (s.removeElement (s.evictList.getLast hne).name).evictList.length + 1 =
    s.evictList.length
  unfold memoryCacheFilesystem.removeElement
  cases hf : s.evictList.find?
      (fun e => e.name == (s.evictList.getLast hne).name) with
  | none =>
    exfalso
    rw [List.find?_eq_none] at hf
    exact hf _ (List.getLast_mem hne) (by simp)
  | some e =>
    have := length_eraseName hf
    simpa using this

/-- removeElement never touches maxItems. -/
theorem removeElement_maxItems (s : memoryCacheFilesystem) (k : String) :
    (s.removeElement k).maxItems = s.maxItems := by
  unfold memoryCacheFilesystem.removeElement
  cases s.evictList.find? (fun e => e.name == k) <;> rfl

/-- removeOldest never touches maxItems. -/
theorem removeOldest_maxItems (s : memoryCacheFilesystem) :
    s.removeOldest.maxItems = s.maxItems := by
  unfold memoryCacheFilesystem.removeOldest
  cases s.evictList.getLast? with
  | none => rfl
  | some e => exact removeElement_maxItems s e.name

/-- add never touches maxItems. -/
theorem add_maxItems (s : memoryCacheFilesystem) (name : String) (f : file) :
    (s.add name f).2.maxItems = s.maxItems := by
  cases hc : s.cLookup name with
  | none =>
    simp only [memoryCacheFilesystem.add, hc]
    split
    · rw [removeOldest_maxItems]
    · rfl
  | some old =>
    simp only [memoryCacheFilesystem.add, hc]
    split
    · rw [removeOldest_maxItems]
      exact removeElement_maxItems s name
    · exact removeElement_maxItems s name

/-- Capacity bound: add keeps the entry count at or below maxItems. -/
theorem add_length_le (s : memoryCacheFilesystem) (name : String) (f : file)
    (h : s.evictList.length ≤ s.maxItems) :
    (s.add name f).2.evictList.length ≤ s.maxItems := by
  cases hc : s.cLookup name with
  | some old =>
    have hfind : s.evictList.find? (fun e => e.name == name) = some old := hc
    have hlen2 := length_eraseName hfind
    simp only [memoryCacheFilesystem.add, hc,
      memoryCacheFilesystem.removeElement, hfind]
    rw [if_neg (by simp only [List.length_cons]; omega)]
    simp only [List.length_cons]
    omega
  | none =>
    simp only [memoryCacheFilesystem.add, hc]
    split
    · next hcond =>
      have hstep := removeOldest_length
        { s with evictList := { file := f, name := name } :: s.evictList,
                 size := s.size + (f.fi.size : Int) } (by simp)
      simp only [List.length_cons] at hstep hcond ⊢
      omega
    · next hcond =>
      simp only [List.length_cons] at hcond ⊢
      omega

/-- Open keeps the entry count at or below maxItems. -/
theorem open_length (origin : String → Option file)
    (s : memoryCacheFilesystem) (name : String)
    (h : s.evictList.length ≤ s.maxItems) :
    (s.Open origin name).2.1.evictList.length ≤ s.maxItems := by
  unfold memoryCacheFilesystem.Open
  cases hg : s.get name with
  | some p =>
    obtain ⟨fOpt, s'⟩ := p
    unfold memoryCacheFilesystem.get at hg
    cases hf : s.evictList.find? (fun e => e.name == name) with
    | none => rw [hf] at hg; cases hg
    | some e =>
      rw [hf] at hg
      simp only [Option.some.injEq, Prod.mk.injEq] at hg
      obtain ⟨-, h2⟩ := hg
      subst h2
      simpa [length_moveToFrontName] using h
  | none =>
    cases ho : origin name with
    | none => exact h
    | some g => simpa using add_length_le s name g h

/-- Open never touches maxItems. -/
theorem open_maxItems (origin : String → Option file)
    (s : memoryCacheFilesystem) (name : String) :
    (s.Open origin name).2.1.maxItems = s.maxItems := by
  unfold memoryCacheFilesystem.Open
  cases hg : s.get name with
  | some p =>
    obtain ⟨fOpt, s'⟩ := p
    unfold memoryCacheFilesystem.get at hg
    cases hf : s.evictList.find? (fun e => e.name == name) with
    | none => rw [hf] at hg; cases hg
    | some e =>
      rw [hf] at hg
      simp only [Option.some.injEq, Prod.mk.injEq] at hg
      obtain ⟨-, h2⟩ := hg
      subst h2
      rfl
  | none =>
    cases ho : origin name with
    | none => rfl
    | some g => simpa using add_maxItems s name g

/-- Every trace of Open calls keeps the entry count at or below the
capacity the cache was created with. -/
theorem runOpens_length (origin : String → Option file) (ops : List String) :
    ∀ s : memoryCacheFilesystem, s.evictList.length ≤ s.maxItems →
      (memoryCacheFilesystem.runOpens origin ops s).evictList.length ≤
        (memoryCacheFilesystem.runOpens origin ops s).maxItems := by
  induction ops with
  | nil => intro s h; exact h
  | cons n ns ih =>
    intro s h
    have h1 := open_length origin s n h
    have h2 := open_maxItems origin s n
    exact ih _ (by rw [h2]; exact h1)

/-- Traces never touch maxItems. -/
theorem runOpens_maxItems (origin : String → Option file) (ops : List String) :
    ∀ s : memoryCacheFilesystem,
      (memoryCacheFilesystem.runOpens origin ops s).maxItems = s.maxItems := by
  induction ops with
  | nil => intro s; rfl
  | cons n ns ih =>
    intro s
    rw [memoryCacheFilesystem.runOpens, List.foldl_cons]
    have := ih (s.Open origin n).2.1
    rw [memoryCacheFilesystem.runOpens] at this
    rw [this, open_maxItems]

/-- eraseName steps over a head with a different name. -/
theorem eraseName_cons_of_ne (a : centry) (as : List centry) (k : String)
    (h : (a.name == k) = false) :
    memoryCacheFilesystem.eraseName (a :: as) k =
      a :: memoryCacheFilesystem.eraseName as k := by
  show (if (a.name == k) = true then as
    else a :: memoryCacheFilesystem.eraseName as k) =
    a :: memoryCacheFilesystem.eraseName as k
  rw [h]
  exact if_neg (by simp)

/-- With pairwise distinct names, erasing the tail entry's name removes
exactly the tail. -/
theorem eraseName_getLast?_of_nodup : ∀ (l : List centry) (b : centry),
    l.getLast? = some b → (l.map centry.name).Nodup →
    memoryCacheFilesystem.eraseName l b.name = l.dropLast := by
  intro l
  induction l with
  | nil => intro b hb _; cases hb
  | cons a as ih =>
    intro b hb hnd
    cases as with
    | nil =>
      rw [List.getLast?_singleton] at hb
      injection hb with hb2
      subst hb2
      simp [memoryCacheFilesystem.eraseName]
    | cons c cs =>
      rw [List.getLast?_cons_cons] at hb
      have hmem : b ∈ c :: cs := mem_of_getLast?_eq hb
      have hnd2 : ((c :: cs).map centry.name).Nodup := by
        rw [List.map_cons] at hnd
        exact List.Nodup.of_cons hnd
      have hna : (a.name == b.name) = false := by
        rw [beq_eq_false_iff_ne]
        intro hcontra
        rw [List.map_cons, List.nodup_cons] at hnd
        exact hnd.1 (hcontra ▸ List.mem_map_of_mem centry.name hmem)
      rw [eraseName_cons_of_ne a (c :: cs) b.name hna, ih b hb hnd2]
      rfl

/-- An insert of an absent key into a full cache pushes the new entry at
the MRU end and evicts exactly the LRU tail. -/
theorem add_full_evicts_tail (s : memoryCacheFilesystem) (name : String)
    (f : file) (hmax : 1 ≤ s.maxItems) (hmiss : s.cLookup name = none)
    (hfull : s.evictList.length = s.maxItems)
    (hnd : (s.evictList.map centry.name).Nodup) :
    (s.add name f).2.evictList =
      { file := f, name := name } :: s.evictList.dropLast := by
  have hfind : s.evictList.find? (fun e => e.name == name) = none := hmiss
  have hne : s.evictList ≠ [] := by
    intro hcontra
    rw [hcontra] at hfull
    simp at hfull
    omega
  have hb := List.getLast?_eq_getLast_of_ne_nil hne
  set b := s.evictList.getLast hne with hbdef
  have hbmem : b ∈ s.evictList := List.getLast_mem hne
  have hbname : (name == b.name) = false := by
    rw [beq_eq_false_iff_ne]
    intro hcontra
    rw [List.find?_eq_none] at hfind
    exact hfind b hbmem (by rw [← hcontra]; simp)
  simp only [memoryCacheFilesystem.add, hmiss]
  rw [if_pos (by simp only [List.length_cons]; omega)]
  unfold memoryCacheFilesystem.removeOldest
  obtain ⟨c, cs, hl⟩ := List.exists_cons_of_ne_nil hne
  have hlast2 : (({ file := f, name := name } : centry) ::
      s.evictList).getLast? = some b := by
    rw [hl, List.getLast?_cons_cons, ← hl, hb]
  rw [show (({ file := f, name := name } :
      centry) :: s.evictList : List centry) = ({ file := f, name := name } :
      centry) :: s.evictList from rfl] at hlast2
  rw [hlast2]
  show ((({ s with
      evictList := { file := f, name := name } :: s.evictList,
      size := s.size + (f.fi.size : Int) } :
        memoryCacheFilesystem).removeElement b.name).evictList) =
    { file := f, name := name } :: s.evictList.dropLast
  unfold memoryCacheFilesystem.removeElement
  cases hf2 : (({ file := f, name := name } : centry) ::
      s.evictList).find? (fun e => e.name == b.name) with
  | none =>
    exfalso
    rw [List.find?_eq_none] at hf2
    exact hf2 b (by right; exact hbmem) (by simp)
  | some e2 =>
    show memoryCacheFilesystem.eraseName
        (({ file := f, name := name } : centry) :: s.evictList) b.name =
      { file := f, name := name } :: s.evictList.dropLast
    simp only [memoryCacheFilesystem.eraseName, hbname, Bool.false_eq_true,
      ite_false]
    rw [eraseName_getLast?_of_nodup s.evictList b hb hnd]

/-- removeElement always leaves exactly the name-erased list (erasing an
absent name is the identity). -/
theorem removeElement_evictList (s : memoryCacheFilesystem) (k : String) :
    (s.removeElement k).evictList =
      memoryCacheFilesystem.eraseName s.evictList k := by
  unfold memoryCacheFilesystem.removeElement
  cases hf : s.evictList.find? (fun e => e.name == k) with
  | none =>
    show s.evictList = _
    rw [eraseName_of_find?_none hf]
  | some e => rfl

/-- removeOldest on a cons whose tail is non-empty and whose last entry's
name differs from the head's: the head survives and the tail entry's name
is erased behind it. -/
theorem removeOldest_cons_evictList (m : centry) (l : List centry)
    (sz : Int) (mi : Nat) (ms : Int) (iv : invState) (hne : l ≠ [])
    (b : centry) (hb : l.getLast? = some b)
    (hname : (m.name == b.name) = false) :
    (memoryCacheFilesystem.removeOldest ⟨m :: l, sz, mi, ms, iv⟩).evictList =
      m :: memoryCacheFilesystem.eraseName l b.name := by
  unfold memoryCacheFilesystem.removeOldest
  have hl2 : (m :: l).getLast? = some b := by
    obtain ⟨c, cs, rfl⟩ := List.exists_cons_of_ne_nil hne
    rw [List.getLast?_cons_cons]
    exact hb
  rw [show (⟨m :: l, sz, mi, ms, iv⟩ :
    memoryCacheFilesystem).evictList.getLast? = some b from hl2]
  show ((⟨m :: l, sz, mi, ms, iv⟩ :
    memoryCacheFilesystem).removeElement b.name).evictList = _
  rw [removeElement_evictList]
  show memoryCacheFilesystem.eraseName (m :: l) b.name = _
  rw [eraseName_cons_of_ne _ _ _ hname]

/-- An insert of an absent key leaves the new entry at the head (MRU end);
the tail eviction, when it fires, never removes the head (capacity at least
1 means the overshooting list has at least two entries). -/
theorem add_head_miss (s : memoryCacheFilesystem) (name : String) (f : file)
    (hmax : 1 ≤ s.maxItems) (hmiss : s.cLookup name = none) :
    ∃ rest, (s.add name f).2.evictList =
      { file := f, name := name } :: rest := by
  simp only [memoryCacheFilesystem.add, hmiss]
  split
  · next hcond =>
    have hne : s.evictList ≠ [] := by
      intro hcontra
      rw [hcontra] at hcond
      simp at hcond
      omega
    have hb := List.getLast?_eq_getLast_of_ne_nil hne
    have hbmem := List.getLast_mem hne
    have hbname : ((({ file := f, name := name } : centry)).name ==
        (s.evictList.getLast hne).name) = false := by
      rw [beq_eq_false_iff_ne]
      intro hcontra
      have hfind : s.evictList.find? (fun e => e.name == name) = none := hmiss
      rw [List.find?_eq_none] at hfind
      exact hfind _ hbmem (by rw [← hcontra]; simp)
    refine ⟨memoryCacheFilesystem.eraseName s.evictList
      (s.evictList.getLast hne).name, ?_⟩
    show (memoryCacheFilesystem.removeOldest
      { evictList := { file := f, name := name } :: s.evictList,
        size := s.size + (f.fi.size : Int), maxItems := s.maxItems,
        maxSize := s.maxSize, inv := s.inv }).evictList = _
    exact removeOldest_cons_evictList _ _ _ _ _ _ hne _ hb hbname
  · next hcond => exact ⟨s.evictList, rfl⟩

/-- A successful Open leaves an entry for the key at the MRU end whose file
clones to exactly the returned reader. -/
theorem open_success_head (origin : String → Option file)
    (s : memoryCacheFilesystem) (name : String) (f : file)
    (s' : memoryCacheFilesystem) (cnt : Nat) (hmax : 1 ≤ s.maxItems)
    (h : s.Open origin name = (some f, s', cnt)) :
    ∃ e rest, s'.evictList = e :: rest ∧ e.name = name ∧
      e.file.readClone = some f := by
  unfold memoryCacheFilesystem.Open at h
  cases hg : s.get name with
  | some p =>
    obtain ⟨fOpt, s0⟩ := p
    rw [hg] at h
    simp only [Prod.mk.injEq] at h
    obtain ⟨h1, h2, -⟩ := h
    subst h1
    subst h2
    unfold memoryCacheFilesystem.get at hg
    cases hf : s.evictList.find? (fun e => e.name == name) with
    | none => rw [hf] at hg; cases hg
    | some e =>
      rw [hf] at hg
      simp only [Option.some.injEq, Prod.mk.injEq] at hg
      obtain ⟨hg1, hg2⟩ := hg
      refine ⟨e, memoryCacheFilesystem.eraseName s.evictList name,
        ?_, find?_name_eq hf, hg1⟩
      rw [← hg2]
      show (memoryCacheFilesystem.moveToFrontName s.evictList name) = _
      unfold memoryCacheFilesystem.moveToFrontName
      rw [hf]
  | none =>
    rw [hg] at h
    have hmiss : s.cLookup name = none := by
      unfold memoryCacheFilesystem.cLookup
      unfold memoryCacheFilesystem.get at hg
      cases hf : s.evictList.find? (fun e => e.name == name) with
      | none => rfl
      | some e => rw [hf] at hg; cases hg
    cases ho : origin name with
    | none => rw [ho] at h; simp at h
    | some g =>
      rw [ho] at h
      simp only [Prod.mk.injEq] at h
      obtain ⟨h1, h2, -⟩ := h
      obtain ⟨rest, hrest⟩ := add_head_miss s name g hmax hmiss
      refine ⟨{ file := g, name := name }, rest, ?_, rfl, ?_⟩
      · rw [← h2]; exact hrest
      · show g.readClone = some f
        rw [show (s.add name g).1 = g.readClone from rfl] at h1
        exact h1

/-- get on a state whose head entry carries the requested name: a hit that
returns a clone of the head's file and leaves the state unchanged (the
promotion moves the head to the front, where it already is). -/
theorem get_cons_head (e : centry) (rest : List centry) (sz : Int) (mi : Nat)
    (ms : Int) (iv : invState) (name : String)
    (hname : (e.name == name) = true) :
    memoryCacheFilesystem.get
      (memoryCacheFilesystem.mk (e :: rest) sz mi ms iv) name =
      some (e.file.readClone,
        memoryCacheFilesystem.mk (e :: rest) sz mi ms iv) := by
  have hf : (e :: rest).find? (fun x => x.name == name) = some e := by
    rw [find?_cons_name, if_pos hname]
  have herase : memoryCacheFilesystem.eraseName (e :: rest) name = rest := by
    show (if (e.name == name) = true then rest
      else e :: memoryCacheFilesystem.eraseName rest name) = rest
    rw [if_pos hname]
  have hf2 : (memoryCacheFilesystem.mk (e :: rest) sz mi ms
      iv).evictList.find? (fun x => x.name == name) = some e := hf
  unfold memoryCacheFilesystem.get
  rw [hf2]
  show some (e.file.readClone,
    memoryCacheFilesystem.mk
      (memoryCacheFilesystem.moveToFrontName (e :: rest) name) sz mi ms iv) = _
  unfold memoryCacheFilesystem.moveToFrontName
  rw [hf, herase]

/-- C1: with capacity N at least 1, the cache never holds more than N
entries over any sequence of Open calls; an insert that overshoots the
capacity evicts exactly one entry, the LRU tail; and after every hit or
insert the touched entry sits at the MRU end of the ordering list. -/
theorem c1_lru_properties (N : Nat) (hN : 1 ≤ N) :
    (∀ (origin : String → Option file) (ops : List String) (maxSize : Int),
      (memoryCacheFilesystem.runOpens origin ops
        (memoryCacheFilesystem.initCache N maxSize)).evictList.length ≤ N) ∧
    (∀ (s : memoryCacheFilesystem) (name : String) (f : file),
      s.maxItems = N → s.cLookup name = none →
      s.evictList.length = N → (s.evictList.map centry.name).Nodup →
      (s.add name f).2.evictList =
        { file := f, name := name } :: s.evictList.dropLast) ∧
    (∀ (origin : String → Option file) (s : memoryCacheFilesystem)
        (name : String) (f : file) (s' : memoryCacheFilesystem) (cnt : Nat),
      s.maxItems = N → s.Open origin name = (some f, s', cnt) →
      ∃ e rest, s'.evictList = e :: rest ∧ e.name = name) := by
  refine ⟨?_, ?_, ?_⟩
  · intro origin ops maxSize
    have h1 := runOpens_length origin ops
      (memoryCacheFilesystem.initCache N maxSize)
      (by simp [memoryCacheFilesystem.initCache])
    have h2 := runOpens_maxItems origin ops
      (memoryCacheFilesystem.initCache N maxSize)
    rw [h2] at h1
    exact h1
  · intro s name f hmaxeq hmiss hfull hnd
    exact add_full_evicts_tail s name f (by rw [hmaxeq]; exact hN) hmiss
      (by rw [hmaxeq]; exact hfull) hnd
  · intro origin s name f s' cnt hmaxeq h
    obtain ⟨e, rest, h1, h2, -⟩ :=
      open_success_head origin s name f s' cnt (by rw [hmaxeq]; exact hN) h
    exact ⟨e, rest, h1, h2⟩

/-- Witness for C1 at capacity 1 with a concrete trace, a concrete full
insert, and a concrete successful Open. -/
theorem c1_lru_properties_witness :
    1 ≤ 1 ∧
    (memoryCacheFilesystem.runOpens wOrg ["a", "b", "a"]
      (memoryCacheFilesystem.initCache 1 0)).evictList.length ≤ 1 ∧
    (wS2.maxItems = 1 ∧ wS2.cLookup "b" = none ∧
      wS2.evictList.length = 1 ∧ (wS2.evictList.map centry.name).Nodup ∧
      (wS2.add "b" tF2).2.evictList =
        { file := tF2, name := "b" } :: wS2.evictList.dropLast) ∧
    (wS2.Open wOrg "a" = (some wClone, wS2, 0) ∧
      ∃ e rest, wS2.evictList = e :: rest ∧ e.name = "a") := by
  refine ⟨le_refl 1, ?_, ⟨rfl, rfl, rfl, ?_, ?_⟩, ?_, ?_⟩
  · exact (c1_lru_properties 1 (le_refl 1)).1 wOrg ["a", "b", "a"] 0
  · decide
  · exact (c1_lru_properties 1 (le_refl 1)).2.1 wS2 "b" tF2 rfl rfl rfl
      (by decide)
  · decide
  · exact (c1_lru_properties 1 (le_refl 1)).2.2 wOrg wS2 "a" wClone wS2 0 rfl
      (by decide)

/-- C2: after a successful Open of a key, an immediate Open of the same key
with no intervening step is a hit: it succeeds with the identical fresh
reader (cursor at 0 over the cached blob's bytes), leaves the state
unchanged with the entry at the MRU end, and performs zero origin
fetches. -/
theorem c2_hit_after_success (origin : String → Option file)
    (s : memoryCacheFilesystem) (name : String) (f : file)
    (s' : memoryCacheFilesystem) (cnt : Nat) (hmax : 1 ≤ s.maxItems)
    (h : s.Open origin name = (some f, s', cnt)) :
    s'.Open origin name = (some f, s', 0) ∧
    f.rdPos = 0 ∧ f.buf = none ∧
    ∃ e rest, s'.evictList = e :: rest ∧ e.name = name ∧
      e.file.buf = some f.rdData := by
  obtain ⟨e, rest, hlist, hname, hclone⟩ :=
    open_success_head origin s name f s' cnt hmax h
  have hbuf : ∃ B, e.file.buf = some B ∧
      f = { rdData := B, rdPos := 0, buf := none, fi := e.file.fi } := by
    unfold file.readClone at hclone
    cases hb : e.file.buf with
    | none => rw [hb] at hclone; cases hclone
    | some B =>
      rw [hb] at hclone
      injection hclone with hf2
      exact ⟨B, rfl, hf2.symm⟩
  obtain ⟨B, hB, hfeq⟩ := hbuf
  refine ⟨?_, by rw [hfeq], by rw [hfeq],
    e, rest, hlist, hname, by rw [hfeq]; exact hB⟩
  obtain ⟨l', sz', mi', ms', iv'⟩ := s'
  have hlist' : l' = e :: rest := hlist
  subst hlist'
  unfold memoryCacheFilesystem.Open
  rw [get_cons_head e rest sz' mi' ms' iv' name (by rw [hname]; simp)]
  rw [hclone]

/-- Witness for C2: a cold capacity-1 cache opens a (one fetch), then the
immediate reopen hits. -/
theorem c2_hit_after_success_witness :
    1 ≤ (memoryCacheFilesystem.initCache 1 0).maxItems ∧
    (memoryCacheFilesystem.initCache 1 0).Open wOrg "a" =
      (some wClone, wS3, 1) ∧
    (wS3.Open wOrg "a" = (some wClone, wS3, 0) ∧
      wClone.rdPos = 0 ∧ wClone.buf = none ∧
      ∃ e rest, wS3.evictList = e :: rest ∧ e.name = "a" ∧
        e.file.buf = some wClone.rdData) :=
  ⟨le_refl 1, by decide,
   c2_hit_after_success wOrg (memoryCacheFilesystem.initCache 1 0) "a"
     wClone wS3 1 (le_refl 1) (by decide)⟩

/-- Erasing one name leaves a sublist. -/
theorem eraseName_sublist (l : List centry) (k : String) :
    (memoryCacheFilesystem.eraseName l k).Sublist l := by
  induction l with
  | nil => simp [memoryCacheFilesystem.eraseName]
  | cons a as ih =>
    by_cases hk : (a.name == k) = true
    · rw [show memoryCacheFilesystem.eraseName (a :: as) k = as from by
        show (if (a.name == k) = true then as
          else a :: memoryCacheFilesystem.eraseName as k) = as
        rw [if_pos hk]]
      exact List.sublist_cons_self a as
    · rw [eraseName_cons_of_ne a as k (by simpa using hk)]
      exact ih.cons₂ a

/-- With pairwise distinct names, no entry with the erased name is left. -/
theorem find?_eraseName_self {l : List centry} {k : String}
    (hnd : (l.map centry.name).Nodup) :
    (memoryCacheFilesystem.eraseName l k).find?
      (fun e => e.name == k) = none := by
  induction l with
  | nil => rfl
  | cons a as ih =>
    rw [List.map_cons, List.nodup_cons] at hnd
    by_cases hk : (a.name == k) = true
    · have hkeq : a.name = k := by simpa using hk
      rw [show memoryCacheFilesystem.eraseName (a :: as) k = as from by
        show (if (a.name == k) = true then as
          else a :: memoryCacheFilesystem.eraseName as k) = as
        rw [if_pos hk]]
      rw [List.find?_eq_none]
      intro e he hcontra
      have heq : e.name = k := by simpa using hcontra
      have hin : a.name ∈ List.map centry.name as := by
        rw [hkeq, ← heq]
        exact List.mem_map_of_mem centry.name he
      exact hnd.1 hin
    · rw [eraseName_cons_of_ne a as k (by simpa using hk), find?_cons_name,
        if_neg hk]
      exact ih hnd.2

/-- Erasing a different name does not change what find? sees for a key. -/
theorem find?_eraseName_ne (l : List centry) {k k' : String} (hne : k ≠ k') :
    (memoryCacheFilesystem.eraseName l k').find? (fun e => e.name == k) =
      l.find? (fun e => e.name == k) := by
  induction l with
  | nil => rfl
  | cons a as ih =>
    by_cases hk' : (a.name == k') = true
    · have haname : (a.name == k) = false := by
        rw [beq_eq_false_iff_ne]
        intro hcontra
        have h2 : a.name = k' := by simpa using hk'
        exact hne (by rw [← hcontra, h2])
      rw [show memoryCacheFilesystem.eraseName (a :: as) k' = as from by
        show (if (a.name == k') = true then as
          else a :: memoryCacheFilesystem.eraseName as k') = as
        rw [if_pos hk']]
      rw [find?_cons_name, if_neg (by simp [haname])]
    · rw [eraseName_cons_of_ne a as k' (by simpa using hk'),
        find?_cons_name, find?_cons_name, ih]

/-- del removes the key's own entry (under distinct names). -/
theorem del_cLookup_self (s : memoryCacheFilesystem) (k : String)
    (hnd : nodupNames s) : (s.del k).cLookup k = none := by
  unfold memoryCacheFilesystem.del
  cases hc : s.cLookup k with
  | none => exact hc
  | some e =>
    show (s.removeElement k).cLookup k = none
    unfold memoryCacheFilesystem.cLookup
    rw [removeElement_evictList]
    exact find?_eraseName_self hnd

/-- del leaves every other key's entry alone. -/
theorem del_cLookup_other (s : memoryCacheFilesystem) (k k' : String)
    (hne : k ≠ k') : (s.del k').cLookup k = s.cLookup k := by
  unfold memoryCacheFilesystem.del
  cases hc : s.cLookup k' with
  | none => rfl
  | some e =>
    show (s.removeElement k').cLookup k = s.cLookup k
    unfold memoryCacheFilesystem.cLookup
    rw [removeElement_evictList]
    exact find?_eraseName_ne s.evictList hne

/-- del preserves distinctness of names. -/
theorem nodupNames_del (s : memoryCacheFilesystem) (k : String)
    (hnd : nodupNames s) : nodupNames (s.del k) := by
  unfold memoryCacheFilesystem.del
  cases hc : s.cLookup k with
  | none => exact hnd
  | some e =>
    show nodupNames (s.removeElement k)
    unfold nodupNames
    rw [removeElement_evictList]
    exact List.Nodup.sublist ((eraseName_sublist s.evictList k).map
      centry.name) hnd

/-- One step of the sweep loop on a stale entry evicts its key. -/
theorem sweepPass_cons_stale (resp : headRequest → Nat)
    (kv : String × fileInfo) (rest : List (String × fileInfo))
    (s : memoryCacheFilesystem) (h : check resp kv.2 = .stale) :
    sweepPass resp (kv :: rest) s = sweepPass resp rest (s.del kv.1) := by
  unfold sweepPass
  rw [List.foldl_cons, h]

/-- One step of the sweep loop on an up-to-date entry changes nothing. -/
theorem sweepPass_cons_uptodate (resp : headRequest → Nat)
    (kv : String × fileInfo) (rest : List (String × fileInfo))
    (s : memoryCacheFilesystem) (h : check resp kv.2 = .uptodate) :
    sweepPass resp (kv :: rest) s = sweepPass resp rest s := by
  unfold sweepPass
  rw [List.foldl_cons, h]

/-- One step of the sweep loop on a transient 408/429 error changes
nothing this pass. -/
theorem sweepPass_cons_retry (resp : headRequest → Nat)
    (kv : String × fileInfo) (rest : List (String × fileInfo))
    (s : memoryCacheFilesystem) (h : check resp kv.2 = .retryErr) :
    sweepPass resp (kv :: rest) s = sweepPass resp rest s := by
  unfold sweepPass
  rw [List.foldl_cons, h]

/-- The per-key effect of a whole sweep pass: an entry is gone afterwards
exactly when it was absent before or some snapshot record of its key
classified as stale. -/
theorem sweepPass_cLookup (resp : headRequest → Nat) :
    ∀ (localItems : List (String × fileInfo)) (s : memoryCacheFilesystem),
      nodupNames s → ∀ k,
      (sweepPass resp localItems s).cLookup k = none ↔
        (s.cLookup k = none ∨
          ∃ fi, (k, fi) ∈ localItems ∧ check resp fi = .stale) := by
  intro localItems
  induction localItems with
  | nil =>
    intro s hnd k
    simp [sweepPass]
  | cons kv rest ih =>
    intro s hnd k
    obtain ⟨k0, fi0⟩ := kv
    cases hchk : check resp fi0 with
    | stale =>
      rw [sweepPass_cons_stale resp (k0, fi0) rest s hchk,
        ih (s.del k0) (nodupNames_del s k0 hnd) k]
      by_cases hk : k = k0
      · subst hk
        rw [del_cLookup_self s k hnd]
        constructor
        · intro _
          exact Or.inr ⟨fi0, List.mem_cons_self _ _, hchk⟩
        · intro _
          exact Or.inl rfl
      · rw [del_cLookup_other s k k0 hk]
        constructor
        · rintro (h | ⟨fi, hmem, hst⟩)
          · exact Or.inl h
          · exact Or.inr ⟨fi, List.mem_cons_of_mem _ hmem, hst⟩
        · rintro (h | ⟨fi, hmem, hst⟩)
          · exact Or.inl h
          · rcases List.mem_cons.mp hmem with heq | hmem2
            · exact absurd (congrArg Prod.fst heq) hk
            · exact Or.inr ⟨fi, hmem2, hst⟩
    | uptodate =>
      rw [sweepPass_cons_uptodate resp (k0, fi0) rest s hchk, ih s hnd k]
      constructor
      · rintro (h | ⟨fi, hmem, hst⟩)
        · exact Or.inl h
        · exact Or.inr ⟨fi, List.mem_cons_of_mem _ hmem, hst⟩
      · rintro (h | ⟨fi, hmem, hst⟩)
        · exact Or.inl h
        · rcases List.mem_cons.mp hmem with heq | hmem2
          · exfalso
            have hfi : fi = fi0 := congrArg Prod.snd heq
            rw [hfi, hchk] at hst
            cases hst
          · exact Or.inr ⟨fi, hmem2, hst⟩
    | retryErr =>
      rw [sweepPass_cons_retry resp (k0, fi0) rest s hchk, ih s hnd k]
      constructor
      · rintro (h | ⟨fi, hmem, hst⟩)
        · exact Or.inl h
        · exact Or.inr ⟨fi, List.mem_cons_of_mem _ hmem, hst⟩
      · rintro (h | ⟨fi, hmem, hst⟩)
        · exact Or.inl h
        · rcases List.mem_cons.mp hmem with heq | hmem2
          · exfalso
            have hfi : fi = fi0 := congrArg Prod.snd heq
            rw [hfi, hchk] at hst
            cases hst
          · exact Or.inr ⟨fi, hmem2, hst⟩

/-- A sweep pass in which no entry classifies as stale leaves the cache
state completely untouched. -/
theorem sweepPass_id (resp : headRequest → Nat) :
    ∀ (localItems : List (String × fileInfo)) (s : memoryCacheFilesystem),
      (∀ kv ∈ localItems, check resp kv.2 ≠ .stale) →
      sweepPass resp localItems s = s := by
  intro localItems
  induction localItems with
  | nil => intro s _; rfl
  | cons kv rest ih =>
    intro s hall
    cases hchk : check resp kv.2 with
    | stale => exact absurd hchk (hall kv (List.mem_cons_self _ _))
    | uptodate =>
      rw [sweepPass_cons_uptodate resp kv rest s hchk]
      exact ih s (fun kv2 h2 => hall kv2 (List.mem_cons_of_mem _ h2))
    | retryErr =>
      rw [sweepPass_cons_retry resp kv rest s hchk]
      exact ih s (fun kv2 h2 => hall kv2 (List.mem_cons_of_mem _ h2))

/-- C3: every sweep checks each snapshot record with a conditional HEAD to
its URL carrying If-Modified-Since from the snapshot mtime and
If-None-Match from its etag; 304 leaves the entry, 408 and 429 are treated
as transient and leave both entry and snapshot for a later pass, and any
other status (including 200) invokes the eviction callback, removing the
key from the cache. -/
theorem c3_sweep (resp : headRequest → Nat)
    (localItems : List (String × fileInfo)) (s : memoryCacheFilesystem)
    (hnd : nodupNames s) :
    (∀ fi : fileInfo, check resp fi = classifyStatus
      (resp { url := fi.basename, ifModifiedSince := fi.modtime,
              ifNoneMatch := fi.etag })) ∧
    (classifyStatus 304 = .uptodate ∧ classifyStatus 408 = .retryErr ∧
      classifyStatus 429 = .retryErr ∧ classifyStatus 200 = .stale) ∧
    (∀ k, (sweepPass resp localItems s).cLookup k = none ↔
      (s.cLookup k = none ∨
        ∃ fi, (k, fi) ∈ localItems ∧ check resp fi = .stale)) ∧
    ((∀ kv ∈ localItems, check resp kv.2 ≠ .stale) →
      sweepPass resp localItems s = s) :=
  ⟨fun fi => rfl, ⟨by decide, by decide, by decide, by decide⟩,
   sweepPass_cLookup resp localItems s hnd,
   sweepPass_id resp localItems s⟩

/-- Witness for C3: one-entry snapshot against an origin answering 200,
and the same against an origin answering 304. -/
theorem c3_sweep_witness :
    nodupNames wS2 ∧
    ((sweepPass (fun _ => 200) [("a", tFI)] wS2).cLookup "a" = none ↔
      (wS2.cLookup "a" = none ∨
        ∃ fi, ("a", fi) ∈ [("a", tFI)] ∧
          check (fun _ => 200) fi = .stale)) ∧
    ((∀ kv ∈ [("a", tFI)], check (fun _ => 304) kv.2 ≠ .stale) →
      sweepPass (fun _ => 304) [("a", tFI)] wS2 = wS2) := by
  refine ⟨?_, ?_, ?_⟩
  · unfold nodupNames
    decide
  · exact (c3_sweep (fun _ => 200) [("a", tFI)] wS2
      (by unfold nodupNames; decide)).2.2.1 "a"
  · exact (c3_sweep (fun _ => 304) [("a", tFI)] wS2
      (by unfold nodupNames; decide)).2.2.2

/-- find? over a cons of key-value pairs, as an if on the head's key. -/
theorem find?_pair_cons (p : String × fileInfo)
    (l : List (String × fileInfo)) (k : String) :
    (p :: l).find? (fun q => q.1 == k) =
      if (p.1 == k) = true then some p
      else l.find? (fun q => q.1 == k) := by
  cases hk : (p.1 == k) <;> simp [List.find?_cons, hk]

/-- Deleting a different key does not change what find? sees. -/
theorem find?_eraseA_ne (l : List (String × fileInfo)) {n k : String}
    (hne : k ≠ n) :
    (eraseA l n).find? (fun q => q.1 == k) =
      l.find? (fun q => q.1 == k) := by
  induction l with
  | nil => rfl
  | cons p t ih =>
    unfold eraseA at ih ⊢
    rw [List.filter_cons]
    by_cases hp : (p.1 != n) = true
    · rw [if_pos hp, find?_pair_cons, find?_pair_cons, ih]
    · have hpn : p.1 = n := by simpa using hp
      have hpk : (p.1 == k) = false := by
        rw [beq_eq_false_iff_ne, hpn]
        exact fun h => hne h.symm
      rw [if_neg hp, find?_pair_cons, if_neg (by simp [hpk]), ih]

/-- Map lookup after delete. -/
theorem lookupA_eraseA (l : List (String × fileInfo)) (n k : String) :
    lookupA (eraseA l n) k = if k = n then none else lookupA l k := by
  by_cases hk : k = n
  · subst hk
    rw [if_pos rfl]
    unfold lookupA
    rw [List.find?_eq_none.mpr]
    · rfl
    · intro p hp
      have := List.of_mem_filter hp
      simp only [bne_iff_ne, ne_eq, decide_eq_true_eq] at this
      simp [this]
  · rw [if_neg hk]
    unfold lookupA
    rw [find?_eraseA_ne l hk]

/-- Map lookup after assignment. -/
theorem lookupA_insertA (l : List (String × fileInfo)) (n k : String)
    (v : fileInfo) :
    lookupA (insertA l n v) k = if k = n then some v else lookupA l k := by
  unfold insertA lookupA
  rw [find?_pair_cons]
  by_cases hk : k = n
  · subst hk
    rw [if_pos (by simp), if_pos rfl]
    rfl
  · have hkb : (n == k) = false := by
      rw [beq_eq_false_iff_ne]
      exact fun h => hk h.symm
    rw [if_neg (by simp [hkb]), if_neg hk]
    show lookupA (eraseA l n) k = lookupA l k
    rw [lookupA_eraseA, if_neg hk]

/-- Membership in the delta sets' insertion. -/
theorem mem_insertS (l : List String) (n k : String) :
    k ∈ insertS l n ↔ k = n ∨ k ∈ l := by
  unfold insertS
  split
  · next hmem =>
    constructor
    · exact Or.inr
    · rintro (rfl | h)
      · exact hmem
      · exact h
  · exact List.mem_cons

/-- The one-step equation of lastOnKey. -/
theorem lastOnKey_cons (op : invOp) (t : List invOp) (k : String) :
    lastOnKey (op :: t) k =
      match lastOnKey t k with
      | some o => some o
      | none => if (opName op == k) = true then some op else none := rfl

/-- Each delta bumps lastmod by one. -/
theorem applyInvOps_lastmod : ∀ (ops : List invOp) (sh : invState),
    (applyInvOps ops sh).lastmod = sh.lastmod + ops.length := by
  intro ops
  induction ops with
  | nil => intro sh; rfl
  | cons op t ih =>
    intro sh
    show (applyInvOps t (applyInvOp sh op)).lastmod = _
    rw [ih]
    cases op <;> simp [applyInvOp, invAddN, invDelN] <;> omega

/-- The shared items map after a delta sequence: the last op on a key
determines its record (an Add leaves its metadata, a Del leaves nothing,
no op leaves the old record). -/
theorem applyInvOps_items : ∀ (ops : List invOp) (sh : invState)
    (k : String),
    lookupA (applyInvOps ops sh).items k =
      (match lastOnKey ops k with
       | none => lookupA sh.items k
       | some (.add _ fi) => some fi
       | some (.del _) => none) := by
  intro ops
  induction ops with
  | nil => intro sh k; rfl
  | cons op t ih =>
    intro sh k
    show lookupA (applyInvOps t (applyInvOp sh op)).items k = _
    rw [ih, lastOnKey_cons]
    cases hl : lastOnKey t k with
    | some o => cases o <;> rfl
    | none =>
      cases op with
      | add n fi =>
        show lookupA (insertA sh.items n fi) k = _
        rw [lookupA_insertA]
        by_cases hk : k = n
        · subst hk
          rw [if_pos rfl, if_pos (by simp [opName])]
        · have hne2 : ¬((opName (invOp.add n fi) == k) = true) := by
            simp only [opName, beq_iff_eq]
            exact fun h => hk h.symm
          rw [if_neg hk, if_neg hne2]
      | del n =>
        show lookupA (eraseA sh.items n) k = _
        rw [lookupA_eraseA]
        by_cases hk : k = n
        · subst hk
          rw [if_pos rfl, if_pos (by simp [opName])]
        · have hne2 : ¬((opName (invOp.del n) == k) = true) := by
            simp only [opName, beq_iff_eq]
            exact fun h => hk h.symm
          rw [if_neg hk, if_neg hne2]

/-- The added set after a delta sequence marks exactly the keys some Add
touched (Del does not unmark them). -/
theorem applyInvOps_added : ∀ (ops : List invOp) (sh : invState)
    (k : String),
    k ∈ (applyInvOps ops sh).added ↔
      k ∈ sh.added ∨ hasAddOn ops k = true := by
  intro ops
  induction ops with
  | nil =>
    intro sh k
    simp [applyInvOps, hasAddOn]
  | cons op t ih =>
    intro sh k
    show k ∈ (applyInvOps t (applyInvOp sh op)).added ↔ _
    rw [ih]
    cases op with
    | add n fi =>
      show k ∈ insertS sh.added n ∨ _ ↔ _
      rw [mem_insertS]
      simp only [hasAddOn, List.any_cons, Bool.or_eq_true, beq_iff_eq]
      constructor
      · rintro ((rfl | h) | h2)
        · exact Or.inr (Or.inl rfl)
        · exact Or.inl h
        · exact Or.inr (Or.inr h2)
      · rintro (h | (rfl | h2))
        · exact Or.inl (Or.inr h)
        · exact Or.inl (Or.inl rfl)
        · exact Or.inr h2
    | del n =>
      simp only [hasAddOn, List.any_cons, Bool.or_eq_true]
      constructor
      · rintro (h | h2)
        · exact Or.inl h
        · exact Or.inr (Or.inr h2)
      · rintro (h | (hfalse | h2))
        · exact Or.inl h
        · cases hfalse
        · exact Or.inr h2

/-- The removed set after a delta sequence marks exactly the keys some Del
touched. -/
theorem applyInvOps_removed : ∀ (ops : List invOp) (sh : invState)
    (k : String),
    k ∈ (applyInvOps ops sh).removed ↔
      k ∈ sh.removed ∨ hasDelOn ops k = true := by
  intro ops
  induction ops with
  | nil =>
    intro sh k
    simp [applyInvOps, hasDelOn]
  | cons op t ih =>
    intro sh k
    show k ∈ (applyInvOps t (applyInvOp sh op)).removed ↔ _
    rw [ih]
    cases op with
    | del n =>
      show k ∈ insertS sh.removed n ∨ _ ↔ _
      rw [mem_insertS]
      simp only [hasDelOn, List.any_cons, Bool.or_eq_true, beq_iff_eq]
      constructor
      · rintro ((rfl | h) | h2)
        · exact Or.inr (Or.inl rfl)
        · exact Or.inl h
        · exact Or.inr (Or.inr h2)
      · rintro (h | (rfl | h2))
        · exact Or.inl (Or.inr h)
        · exact Or.inl (Or.inl rfl)
        · exact Or.inr h2
    | add n fi =>
      simp only [hasDelOn, List.any_cons, Bool.or_eq_true]
      constructor
      · rintro (h | h2)
        · exact Or.inl h
        · exact Or.inr (Or.inr h2)
      · rintro (h | (hfalse | h2))
        · exact Or.inl h
        · cases hfalse
        · exact Or.inr h2

/-- A key with some Add has a last op. -/
theorem lastOnKey_ne_none_of_hasAdd : ∀ (ops : List invOp) (k : String),
    hasAddOn ops k = true → lastOnKey ops k ≠ none := by
  intro ops
  induction ops with
  | nil => intro k h; cases h
  | cons op t ih =>
    intro k h
    rw [lastOnKey_cons]
    cases hl : lastOnKey t k with
    | some o => simp
    | none =>
      have ht : hasAddOn t k = false := by
        cases hv : hasAddOn t k
        · rfl
        · exact absurd hl (ih k hv)
      cases op with
      | add n fi =>
        simp only [hasAddOn, List.any_cons, Bool.or_eq_true, beq_iff_eq]
          at h
        rcases h with rfl | h2
        · rw [if_pos (by simp [opName])]
          simp
        · rw [hasAddOn] at ht
          rw [ht] at h2
          cases h2
      | del n =>
        simp only [hasAddOn, List.any_cons, Bool.or_eq_true] at h
        rcases h with hfalse | h2
        · cases hfalse
        · rw [hasAddOn] at ht
          rw [ht] at h2
          cases h2

/-- A key with some Del has a last op. -/
theorem lastOnKey_ne_none_of_hasDel : ∀ (ops : List invOp) (k : String),
    hasDelOn ops k = true → lastOnKey ops k ≠ none := by
  intro ops
  induction ops with
  | nil => intro k h; cases h
  | cons op t ih =>
    intro k h
    rw [lastOnKey_cons]
    cases hl : lastOnKey t k with
    | some o => simp
    | none =>
      have ht : hasDelOn t k = false := by
        cases hv : hasDelOn t k
        · rfl
        · exact absurd hl (ih k hv)
      cases op with
      | del n =>
        simp only [hasDelOn, List.any_cons, Bool.or_eq_true, beq_iff_eq]
          at h
        rcases h with rfl | h2
        · rw [if_pos (by simp [opName])]
          simp
        · rw [hasDelOn] at ht
          rw [ht] at h2
          cases h2
      | add n fi =>
        simp only [hasDelOn, List.any_cons, Bool.or_eq_true] at h
        rcases h with hfalse | h2
        · cases hfalse
        · rw [hasDelOn] at ht
          rw [ht] at h2
          cases h2

/-- A last Add op on a key implies the key has an Add. -/
theorem hasAddOn_of_lastOnKey_add : ∀ (ops : List invOp) (k n : String)
    (fi : fileInfo), lastOnKey ops k = some (.add n fi) →
    hasAddOn ops k = true := by
  intro ops
  induction ops with
  | nil => intro k n fi h; cases h
  | cons op t ih =>
    intro k n fi h
    rw [lastOnKey_cons] at h
    simp only [hasAddOn, List.any_cons, Bool.or_eq_true]
    cases hl : lastOnKey t k with
    | some o =>
      rw [hl] at h
      injection h with h2
      subst h2
      exact Or.inr (ih k n fi hl)
    | none =>
      rw [hl] at h
      by_cases hop : (opName op == k) = true
      · rw [if_pos hop] at h
        injection h with h2
        subst h2
        simp only [opName, beq_iff_eq] at hop
        exact Or.inl (by simp [hop])
      · rw [if_neg hop] at h
        cases h

/-- A last Del op on a key implies the key has a Del. -/
theorem hasDelOn_of_lastOnKey_del : ∀ (ops : List invOp) (k n : String),
    lastOnKey ops k = some (.del n) → hasDelOn ops k = true := by
  intro ops
  induction ops with
  | nil => intro k n h; cases h
  | cons op t ih =>
    intro k n h
    rw [lastOnKey_cons] at h
    simp only [hasDelOn, List.any_cons, Bool.or_eq_true]
    cases hl : lastOnKey t k with
    | some o =>
      rw [hl] at h
      injection h with h2
      subst h2
      exact Or.inr (ih k n hl)
    | none =>
      rw [hl] at h
      by_cases hop : (opName op == k) = true
      · rw [if_pos hop] at h
        injection h with h2
        subst h2
        simp only [opName, beq_iff_eq] at hop
        exact Or.inl (by simp [hop])
      · rw [if_neg hop] at h
        cases h

/-- Lookup after deleting every key of a list. -/
theorem lookupA_foldl_eraseA (k : String) : ∀ (rem : List String)
    (l : List (String × fileInfo)),
    lookupA (rem.foldl eraseA l) k =
      if k ∈ rem then none else lookupA l k := by
  intro rem
  induction rem with
  | nil => intro l; simp
  | cons r t ih =>
    intro l
    rw [List.foldl_cons, ih]
    by_cases hk : k ∈ t
    · rw [if_pos hk, if_pos (List.mem_cons_of_mem r hk)]
    · rw [if_neg hk]
      by_cases hkr : k = r
      · subst hkr
        rw [if_pos (List.mem_cons_self _ _), lookupA_eraseA, if_pos rfl]
      · rw [if_neg (by simp [hkr, hk]), lookupA_eraseA, if_neg hkr]

/-- Lookup after inserting a computed record for every key of a list. -/
theorem lookupA_foldl_insertA (k : String) (v : String → fileInfo) :
    ∀ (addl : List String) (l : List (String × fileInfo)),
    lookupA (addl.foldl (fun acc k' => insertA acc k' (v k')) l) k =
      if k ∈ addl then some (v k) else lookupA l k := by
  intro addl
  induction addl with
  | nil => intro l; simp
  | cons a t ih =>
    intro l
    rw [List.foldl_cons, ih]
    by_cases hk : k ∈ t
    · rw [if_pos hk, if_pos (List.mem_cons_of_mem a hk)]
    · rw [if_neg hk]
      by_cases hka : k = a
      · subst hka
        rw [if_pos (List.mem_cons_self _ _), lookupA_insertA, if_pos rfl]
      · rw [if_neg (by simp [hka, hk]), lookupA_insertA, if_neg hka]

/-- C4 counterexample: starting from an empty invalidator, Add("k") then
Del("k") then one fold leaves "k" PRESENT in the local snapshot, bound to
the zero-value metadata (Del does not unmark the added set, and the Go map
read ci.items[k] of the deleted key yields the zero fileInfo) — the claim
says such a key is absent. -/
theorem c4_counterexample :
    lookupA (foldDeltas
      (applyInvOps [invOp.add "k" tFI, invOp.del "k"] initInv) []
      initInv.lastmod).1 "k" = some zeroFileInfo ∧
    lookupA (foldDeltas
      (applyInvOps [invOp.add "k" tFI, invOp.del "k"] initInv) []
      initInv.lastmod).1 "k" ≠ none ∧
    tFI ≠ zeroFileInfo := by
  decide

/-- C4 amended: after folding the deltas of one window (clean start: empty
added/removed sets), a key whose last delta is an Add maps to that Add's
metadata; a key whose last delta is a Del maps to the zero-value metadata
when some Add of it is pending in the added set (Add and Del both since the
previous fold) and is absent when only Dels touched it; an untouched key
keeps its previous snapshot record. -/
theorem c4_fold_characterization (sh : invState)
    (localItems : List (String × fileInfo)) (ops : List invOp) (k : String)
    (hadd : sh.added = []) (hrem : sh.removed = []) :
    lookupA (foldDeltas (applyInvOps ops sh) localItems sh.lastmod).1 k =
      specFoldResult ops k (lookupA localItems k) := by
  cases ops with
  | nil =>
    unfold foldDeltas
    rw [if_pos (show (applyInvOps [] sh).lastmod = sh.lastmod from rfl)]
    rfl
  | cons op0 t0 =>
    have hlen : ¬((applyInvOps (op0 :: t0) sh).lastmod = sh.lastmod) := by
      rw [applyInvOps_lastmod]
      simp
    unfold foldDeltas
    rw [if_neg hlen]
    show lookupA ((applyInvOps (op0 :: t0) sh).added.foldl
      (fun l k' => insertA l k'
        ((lookupA (applyInvOps (op0 :: t0) sh).items k').getD zeroFileInfo))
      ((applyInvOps (op0 :: t0) sh).removed.foldl eraseA localItems)) k = _
    rw [lookupA_foldl_insertA k
      (fun k' => (lookupA (applyInvOps (op0 :: t0) sh).items
        k').getD zeroFileInfo),
      lookupA_foldl_eraseA k]
    by_cases hA : k ∈ (applyInvOps (op0 :: t0) sh).added
    · rw [if_pos hA]
      have hAdd : hasAddOn (op0 :: t0) k = true := by
        rcases (applyInvOps_added (op0 :: t0) sh k).mp hA with h | h
        · rw [hadd] at h; cases h
        · exact h
      cases ho : lastOnKey (op0 :: t0) k with
      | none => exact absurd ho (lastOnKey_ne_none_of_hasAdd _ k hAdd)
      | some o =>
        cases o with
        | add n fi =>
          rw [applyInvOps_items, ho]
          unfold specFoldResult
          rw [ho]
          rfl
        | del n =>
          rw [applyInvOps_items, ho]
          unfold specFoldResult
          rw [ho, if_pos hAdd]
          rfl
    · rw [if_neg hA]
      have hnAdd : hasAddOn (op0 :: t0) k = false := by
        cases hv : hasAddOn (op0 :: t0) k
        · rfl
        · exact absurd ((applyInvOps_added _ sh k).mpr (Or.inr hv)) hA
      by_cases hR : k ∈ (applyInvOps (op0 :: t0) sh).removed
      · rw [if_pos hR]
        have hDel : hasDelOn (op0 :: t0) k = true := by
          rcases (applyInvOps_removed (op0 :: t0) sh k).mp hR with h | h
          · rw [hrem] at h; cases h
          · exact h
        cases ho : lastOnKey (op0 :: t0) k with
        | none => exact absurd ho (lastOnKey_ne_none_of_hasDel _ k hDel)
        | some o =>
          cases o with
          | add n fi =>
            exact absurd (hasAddOn_of_lastOnKey_add _ k n fi ho)
              (by rw [hnAdd]; simp)
          | del n =>
            unfold specFoldResult
            rw [ho, if_neg (by rw [hnAdd]; simp)]
      · rw [if_neg hR]
        have hnDel : hasDelOn (op0 :: t0) k = false := by
          cases hv : hasDelOn (op0 :: t0) k
          · rfl
          · exact absurd ((applyInvOps_removed _ sh k).mpr (Or.inr hv)) hR
        cases ho : lastOnKey (op0 :: t0) k with
        | none =>
          unfold specFoldResult
          rw [ho]
        | some o =>
          cases o with
          | add n fi =>
            exact absurd (hasAddOn_of_lastOnKey_add _ k n fi ho)
              (by rw [hnAdd]; simp)
          | del n =>
            exact absurd (hasDelOn_of_lastOnKey_del _ k n ho)
              (by rw [hnDel]; simp)

/-- Witness for C4 at a concrete window: a replacement (Del then Add) and
an Add-then-Del, folded from a clean state. -/
theorem c4_fold_characterization_witness :
    initInv.added = [] ∧ initInv.removed = [] ∧
    lookupA (foldDeltas
        (applyInvOps [invOp.add "k" tFI, invOp.del "k", invOp.add "k" tFI2]
          initInv) [] initInv.lastmod).1 "k" =
      specFoldResult [invOp.add "k" tFI, invOp.del "k", invOp.add "k" tFI2]
        "k" (lookupA [] "k") :=
  ⟨rfl, rfl,
   c4_fold_characterization initInv []
     [invOp.add "k" tFI, invOp.del "k", invOp.add "k" tFI2] "k" rfl rfl⟩

end Filesrv
